import Mathlib

/-!
Verification of the classification-and-placement engine of photo-dir-utils
(src/photos.py), a tool that sorts a camera-roll directory tree into
date-named subdirectories.

The embedding models:
  * paths as lists of components relative to the camera-roll root
    (os.walk and os.path.join only ever produce well-formed paths, so a
    path string and its component list are in bijection);
  * the filesystem as a flat set of directories plus a flat map from file
    paths to their EXIF "Image DateTime" field (an Option String: none
    models a file whose metadata field is absent);
  * os.walk as a fuelled recursive enumeration (root first, then children
    in directory-list order, matching the top-down walk of the source);
  * the date formats "%m-%d-%Y" (DATE_FILE_FORMAT) and
    "%Y:%m:%d %H:%M:%S" (EXIF_DATE_TOKEN_FORMAT) of datetime.strptime and
    strftime as executable parsers and printers over decimal digits;
  * os.rename and os.makedirs as state transformers that can fail;
    external failure causes (permissions, races) are an explicit
    environment parameter, since the source calls os.rename directly;
  * uncaught Python exceptions and sys.exit as an abort marker that
    freezes the remainder of the run.
-/

namespace PhotoUtils

/-! ### Decimal digits and numbers (for strftime / strptime modelling) -/

/-- The character for a decimal digit value. -/
def digitChar (n : Nat) : Char := Char.ofNat (48 + n)

/-- Decimal digit characters of a natural number, most significant first,
with explicit fuel (any fuel above the number suffices, and the wrapper
below always supplies enough). -/
def natDigitsAux : Nat → Nat → List Char
  | 0, _ => []
  | fuel + 1, n =>
    if n < 10 then [digitChar n]
    else natDigitsAux fuel (n / 10) ++ [digitChar (n % 10)]

/-- Decimal digit characters of a natural number, most significant first. -/
def natDigits (n : Nat) : List Char := natDigitsAux (n + 1) n

/-- Decimal rendering of a natural number (the model of str/%-formatting of
an integer field in strftime). -/
def natToStr (n : Nat) : String := ⟨natDigits n⟩

/-- Zero-padded two-digit rendering, as strftime produces for %m and %d. -/
def pad2 (n : Nat) : String := if n < 10 then ⟨'0' :: natDigits n⟩ else natToStr n

/-- Numeric value of an all-digit character list (none if empty or if any
character is not a decimal digit), the model of one %-field match of
strptime. -/
def digitsToNat (cs : List Char) : Option Nat :=
  if cs ≠ [] ∧ cs.all Char.isDigit then
    some (cs.foldl (fun a c => 10 * a + (c.toNat - 48)) 0)
  else none

/-- One numeric strptime field: at most maxLen digits. -/
def parseNatField (cs : List Char) (maxLen : Nat) : Option Nat :=
  if cs.length ≤ maxLen then digitsToNat cs else none

/-! ### Splitting character lists (model of splitting a string on a separator) -/

/-- Split a character list at every occurrence of the separator. -/
def splitOnChar (sep : Char) : List Char → List (List Char)
  | [] => [[]]
  | c :: cs =>
    let rest := splitOnChar sep cs
    if c = sep then [] :: rest
    else match rest with
      | [] => [[c]]
      | r :: rs => (c :: r) :: rs

/-! ### Substring test (the Python `substring in root` check) -/

/-- Whether pat occurs at the start of hay. -/
def prefAt : List Char → List Char → Bool
  | _, [] => true
  | [], _ :: _ => false
  | h :: hs, p :: ps => h = p && prefAt hs ps

/-- Whether pat occurs anywhere inside hay (Python's `pat in hay` on
strings). -/
def containsC : List Char → List Char → Bool
  | [], pat => prefAt [] pat
  | c :: hs, pat => prefAt (c :: hs) pat || containsC hs pat

/-- `substring in root` on rendered path strings. -/
def strContains (hay pat : String) : Bool := containsC hay.toList pat.toList

/-! ### os.path.splitext on a bare filename -/

/-- Split a character list at its last dot: (before, after), both without
the dot itself; none when there is no dot. -/
def breakAtLastDot : List Char → Option (List Char × List Char)
  | [] => none
  | c :: rest =>
    match breakAtLastDot rest with
    | some (pre, post) => some (c :: pre, post)
    | none => if c = '.' then some ([], rest) else none

/-- os.path.splitext on a bare filename: the extension starts at the last
dot, provided some character strictly before that dot is not itself a dot
(so purely leading dots, as in ".xmp" or "...", yield no extension). -/
def splitExt (name : String) : String × String :=
  match breakAtLastDot name.toList with
  | some (pre, post) =>
    if pre.any (fun c => c ≠ '.') then (⟨pre⟩, ⟨'.' :: post⟩) else (name, "")
  | none => (name, "")

/-! ### Dates -/

/-- A calendar date as produced by datetime.strptime (only the fields that
DATE_FILE_FORMAT renders are retained). -/
structure SDate where
  year : Nat
  month : Nat
  day : Nat
deriving DecidableEq, Repr

/-- Gregorian leap-year rule used by datetime's day-of-month validation. -/
def isLeap (y : Nat) : Bool := y % 4 = 0 && (y % 100 ≠ 0 || y % 400 = 0)

/-- Days in a month, as datetime validates them. -/
def daysInMonth (y m : Nat) : Nat :=
  if m = 2 then (if isLeap y then 29 else 28)
  else if m = 4 ∨ m = 6 ∨ m = 9 ∨ m = 11 then 30
  else 31

/-- DATE_FILE_FORMAT = "%m-%d-%Y": datetime.strptime of a directory name.
Three dash-separated numeric fields (month and day up to two digits, year
up to four), validated exactly as datetime does (month 1..12, day within
the month, year at least 1; years above 9999 are unrepresentable). -/
def parseDateKey (s : String) : Option SDate :=
  match splitOnChar '-' s.toList with
  | [ms, ds, ys] => do
    let m ← parseNatField ms 2
    let d ← parseNatField ds 2
    let y ← parseNatField ys 4
    if 1 ≤ m ∧ m ≤ 12 ∧ 1 ≤ y ∧ y ≤ 9999 ∧ 1 ≤ d ∧ d ≤ daysInMonth y m then
      some ⟨y, m, d⟩
    else none
  | _ => none

/-- DATE_FILE_FORMAT = "%m-%d-%Y": datetime.strftime, producing the
directory-name form of a date key. -/
def formatDateKey (d : SDate) : String :=
  pad2 d.month ++ "-" ++ pad2 d.day ++ "-" ++ natToStr d.year

/-- EXIF_DATE_TOKEN_FORMAT = "%Y:%m:%d %H:%M:%S": datetime.strptime of the
EXIF Image DateTime value, with datetime's field validation (hours to 23,
minutes and seconds to 59, day within the month). -/
def parseExifDate (s : String) : Option SDate :=
  match splitOnChar ' ' s.toList with
  | [dp, tp] =>
    match splitOnChar ':' dp, splitOnChar ':' tp with
    | [ys, ms, ds], [hs, ns, ss] => do
      let y ← parseNatField ys 4
      let m ← parseNatField ms 2
      let d ← parseNatField ds 2
      let hh ← parseNatField hs 2
      let nn ← parseNatField ns 2
      let sec ← parseNatField ss 2
      if 1 ≤ m ∧ m ≤ 12 ∧ 1 ≤ y ∧ y ≤ 9999 ∧ 1 ≤ d ∧ d ≤ daysInMonth y m ∧
          hh ≤ 23 ∧ nn ≤ 59 ∧ sec ≤ 59 then
        some ⟨y, m, d⟩
      else none
    | _, _ => none
  | _ => none

/-! ### The filesystem model -/

/-- A path relative to the camera-roll root, as a list of name components.
The root itself is the empty list. -/
abbrev CPath := List String

/-- Flat filesystem state: the set of directories present (the root is
always implicitly present) and, for every regular file, the value of its
EXIF "Image DateTime" field (none when the field is absent — exifread then
yields no such tag and indexing raises KeyError). List order models the
OS-determined listdir enumeration order that os.walk follows. -/
structure FS where
  dirs : List CPath
  files : List (CPath × Option String)
deriving DecidableEq, Repr

/-- Last path component (the filename), os.path.basename. -/
def baseName (p : CPath) : String := p.getLast?.getD ""

/-- Immediate subdirectories of a directory, in listdir order. -/
def childrenOf (fs : FS) (p : CPath) : List CPath :=
  fs.dirs.filter (fun d => d ≠ [] ∧ d.dropLast = p)

/-- Files directly inside a directory, in listdir order:
(filename, metadata) pairs. -/
def filesIn (fs : FS) (d : CPath) : List (String × Option String) :=
  fs.files.filterMap (fun pc =>
    if pc.1 ≠ [] ∧ pc.1.dropLast = d then some (baseName pc.1, pc.2) else none)

/-- Whether os.path.exists holds of a path (directory or file). -/
def existsPath (fs : FS) (p : CPath) : Bool :=
  fs.dirs.contains p || fs.files.any (fun pc => pc.1 = p)

/-- The paths of all regular files. -/
def filePaths (s : FS) : List CPath := s.files.map Prod.fst

/-- Between two filesystem states: distinct file paths stay distinct and
the multiset of file contents is preserved — no file's bytes are ever
destroyed, which is what an overwrite would do. (A move re-homes a
content; it never discards one.) -/
def ContentsPreserved (a b : FS) : Prop :=
  (filePaths a).Nodup →
    (filePaths b).Nodup ∧ (b.files.map Prod.snd).Perm (a.files.map Prod.snd)

/-- An upper bound on the depth of any directory. -/
def maxDirDepth (fs : FS) : Nat := fs.dirs.foldl (fun a d => max a d.length) 0

/-- os.walk from a directory, top-down: the directory itself first, then
each subdirectory recursively, in listdir order. Fuel bounds the recursion
depth; walk always supplies enough. -/
def walkFrom (fs : FS) : Nat → CPath → List CPath
  | 0, p => [p]
  | Nat.succ fuel, p => p :: ((childrenOf fs p).map (walkFrom fs fuel)).flatten

/-- os.walk over the whole tree, starting at the camera-roll root. -/
def walk (fs : FS) : List CPath := walkFrom fs (maxDirDepth fs) []

/-- Rendered absolute path string of a directory, as os.walk yields it:
the camera-roll root string followed by slash-joined components. -/
def renderPath (cr : String) (p : CPath) : String :=
  ⟨p.foldl (fun a comp => a ++ '/' :: comp.toList) cr.toList⟩

/-! ### File classification (lines 66-77 of photos.py) -/

/-- JPG_NAME. -/
def JPG_NAME : List String := [".jpg", ".jpeg"]

/-- RAW_NAME. -/
def RAW_NAME : List String := [".cr2", ".dng"]

/-- SIDECAR_NAME. -/
def SIDECAR_NAME : List String := [".xmp"]

/-- The role a filename's extension selects in the scan loop. -/
inductive Role
  | jpgR
  | rawR
  | sidecarR
  | unrecR
deriving DecidableEq, Repr

/-- Lower-casing of a filename extension (str.lower; the extension sets
compared against are pure ASCII, where Python's lower and this agree). -/
def lowerStr (s : String) : String := ⟨s.toList.map Char.toLower⟩

/-- Classification by lower-cased extension, in the if/elif order of the
source (jpg, then raw, then sidecar, else unrecognized). -/
def roleOf (name : String) : Role :=
  if lowerStr (splitExt name).2 ∈ JPG_NAME then .jpgR
  else if lowerStr (splitExt name).2 ∈ RAW_NAME then .rawR
  else if lowerStr (splitExt name).2 ∈ SIDECAR_NAME then .sidecarR
  else .unrecR

/-! ### Errors, aborts, actions -/

/-- Events the source reports through logger.error without stopping. -/
inductive Err
  | unrecognized (p : CPath)
  | conflict (reportedFrom dest : CPath)
  | mkdirFail (p : CPath)
deriving DecidableEq, Repr

/-- Conditions that terminate the whole run: uncaught exceptions from
metadata reading/parsing or os.rename, and the sys.exit issued on a
directory-creation failure (which names the failed path). -/
inductive Abort
  | metadataMissing (p : CPath)
  | metadataUnparsable (p : CPath)
  | mkdirFailed (p : CPath)
  | renameFailed (src dest : CPath)
deriving DecidableEq, Repr

/-- A performed filesystem mutation. -/
inductive Act
  | mkdirA (p : CPath)
  | renameA (src dest : CPath)
deriving DecidableEq, Repr

/-! ### The Sort Plan and the scan phase (lines 49-84 of photos.py) -/

/-- The populated sort plan: date-key subdirectories already present at
the root, raw and preview files grouped by date key, and sidecars indexed
by base filename with the extension stripped. -/
structure SortPlan where
  existing : List String
  raws : List (String × List CPath)
  jpgs : List (String × List CPath)
  sidecars : List (String × CPath)
deriving DecidableEq, Repr

/-- Python dict: append a value to the list at a key, creating the key at
the end on first use (insertion order preserved). -/
def dictAppend (m : List (String × List CPath)) (k : String) (v : CPath) :
    List (String × List CPath) :=
  if m.any (fun kv => kv.1 = k) then
    m.map (fun kv => if kv.1 = k then (kv.1, kv.2 ++ [v]) else kv)
  else m ++ [(k, [v])]

/-- Python dict assignment: overwrite the value at a key, or add the key. -/
def dictSet (m : List (String × CPath)) (k : String) (v : CPath) :
    List (String × CPath) :=
  if m.any (fun kv => kv.1 = k) then
    m.map (fun kv => if kv.1 = k then (kv.1, v) else kv)
  else m ++ [(k, v)]

/-- Python dict lookup (dict.get, none when absent). -/
def dictGet (m : List (String × CPath)) (k : String) : Option CPath :=
  (m.find? (fun kv => kv.1 = k)).map (fun kv => kv.2)

/-- Right-biased choice: the second option wins when present (the shape of
repeated dict assignment). -/
def oupdate (a b : Option CPath) : Option CPath :=
  match b with
  | some v => some v
  | none => a

/-- The value attached to the last occurrence of a key in an ordered list
of assignments (none when the key never occurs). -/
def lastVal : List (String × CPath) → String → Option CPath
  | [], _ => none
  | kv :: rest, s =>
    match lastVal rest s with
    | some v => some v
    | none => if kv.1 = s then some kv.2 else none

/-- The (stripped base filename, full path) pairs of the sidecar files
among a directory listing, in listing order. -/
def sidecarPairs (d : CPath) (l : List (String × Option String)) :
    List (String × CPath) :=
  l.filterMap (fun nc =>
    if roleOf nc.1 = .sidecarR then some ((splitExt nc.1).1, d ++ [nc.1]) else none)

/-- All sidecar (stem, path) pairs the scan visits over the given
directories, in visit order. -/
def sidecarVisits (fs : FS) (cr : String) (ex : List String) : List CPath →
    List (String × CPath)
  | [] => []
  | d :: rest =>
    (if d = [] ∨ ex.any (fun k => strContains (renderPath cr d) k) then
      sidecarPairs d (filesIn fs d) else []) ++ sidecarVisits fs cr ex rest

/-- Scan state: the sort plan so far, the errors reported so far, and the
pending abort, if an uncaught exception is propagating. -/
structure ScanAcc where
  plan : SortPlan
  errs : List Err
  abort : Option Abort
deriving DecidableEq, Repr

/-- The admission condition of the walk loop (lines 55-64): a directory's
files are scanned only when it is the source root itself or its rendered
path contains the name of one of the existing date-key directories. -/
def DirOK (cr : String) (ex : List String) (d : CPath) : Prop :=
  d = [] ∨ ex.any (fun k => strContains (renderPath cr d) k) = true

/-- Every path recorded in a sort plan lies in an admitted directory. -/
def PlanWhitelisted (cr : String) (ex : List String) (pl : SortPlan) : Prop :=
  (∀ kfl ∈ pl.raws, ∀ f ∈ kfl.2, DirOK cr ex f.dropLast) ∧
  (∀ kfl ∈ pl.jpgs, ∀ f ∈ kfl.2, DirOK cr ex f.dropLast) ∧
  (∀ kv ∈ pl.sidecars, DirOK cr ex kv.2.dropLast)

/-- The date keys found at the root: names of immediate subdirectories
that datetime.strptime accepts under DATE_FILE_FORMAT (lines 55-61). -/
def existingOf (fs : FS) : List String :=
  (childrenOf fs []).filterMap (fun d =>
    if (parseDateKey (baseName d)).isSome then some (baseName d) else none)

/-- Scan one directory entry (lines 66-84): classify by extension; for raw
and preview files read and parse the capture date — a missing field
(KeyError) or unparsable value (ValueError) is an uncaught exception that
aborts the scan — and append the file to its date-key group; index
sidecars by stripped base filename; report unrecognized extensions. -/
def scanFile (d : CPath) (acc : ScanAcc) (nc : String × Option String) : ScanAcc :=
  if acc.abort.isSome then acc else
  match roleOf nc.1 with
  | .sidecarR =>
    { acc with plan.sidecars := dictSet acc.plan.sidecars (splitExt nc.1).1 (d ++ [nc.1]) }
  | .unrecR => { acc with errs := acc.errs ++ [.unrecognized (d ++ [nc.1])] }
  | .jpgR =>
    match nc.2 with
    | none => { acc with abort := some (.metadataMissing (d ++ [nc.1])) }
    | some s =>
      match parseExifDate s with
      | none => { acc with abort := some (.metadataUnparsable (d ++ [nc.1])) }
      | some dt =>
        { acc with plan.jpgs := dictAppend acc.plan.jpgs (formatDateKey dt) (d ++ [nc.1]) }
  | .rawR =>
    match nc.2 with
    | none => { acc with abort := some (.metadataMissing (d ++ [nc.1])) }
    | some s =>
      match parseExifDate s with
      | none => { acc with abort := some (.metadataUnparsable (d ++ [nc.1])) }
      | some dt =>
        { acc with plan.raws := dictAppend acc.plan.raws (formatDateKey dt) (d ++ [nc.1]) }

/-- Scan the files of one directory in listdir order. -/
def scanFiles (d : CPath) (acc : ScanAcc) : List (String × Option String) → ScanAcc
  | [] => acc
  | nc :: rest => scanFiles d (scanFile d acc nc) rest

/-- Process one directory of the walk (lines 54-64): the root's own files
are always scanned; any other directory is scanned only when its rendered
path contains the name of one of the existing date-key directories,
otherwise it is skipped. -/
def scanDir (fs : FS) (cr : String) (ex : List String) (acc : ScanAcc) (d : CPath) :
    ScanAcc :=
  if acc.abort.isSome then acc
  else if d = [] then scanFiles d acc (filesIn fs d)
  else if ex.any (fun k => strContains (renderPath cr d) k) then
    scanFiles d acc (filesIn fs d)
  else acc

/-- Fold the scan over the walked directories. -/
def scanDirs (fs : FS) (cr : String) (ex : List String) (acc : ScanAcc) :
    List CPath → ScanAcc
  | [] => acc
  | d :: rest => scanDirs fs cr ex (scanDir fs cr ex acc d) rest

/-- The whole scan phase: collect the existing date-key directories at the
root (the walk yields the root first), then classify and group every file
of every walked, whitelisted directory. -/
def scan (fs : FS) (cr : String) : ScanAcc :=
  let ex := existingOf fs
  scanDirs fs cr ex ⟨⟨ex, [], [], []⟩, [], none⟩ (walk fs)

/-! ### Filesystem primitives of the execution phase -/

/-- All nonempty prefixes of a path, shortest first. -/
def prefixesOf (p : CPath) : List CPath :=
  (List.range p.length).map (fun i => p.take (i + 1))

/-- os.makedirs: fails (OSError) when the leaf already exists as a
directory or any prefix of the path exists as a regular file; otherwise
creates every missing intermediate directory. -/
def makedirsOp (s : FS) (p : CPath) : Option FS :=
  if s.dirs.contains p ∨
      (prefixesOf p).any (fun q => s.files.any (fun pc => pc.1 = q)) then none
  else some { s with dirs := s.dirs ++ (prefixesOf p).filter (fun q => ¬ s.dirs.contains q) }

/-- os.rename: fails (OSError) when the environment injects a failure
(permissions, races), when the source file does not exist, or when the
destination's parent directory does not exist; otherwise moves the file.
The moved entry is appended at the end of the listing. The callers below
only invoke it after checking that the destination path does not exist. -/
def renameOp (env : CPath → CPath → Bool) (s : FS) (src dest : CPath) : Option FS :=
  if env src dest then none
  else match s.files.find? (fun pc => pc.1 = src) with
    | none => none
    | some pc =>
      if dest.dropLast ≠ [] ∧ ¬ s.dirs.contains dest.dropLast then none
      else some { s with files := s.files.filter (fun q => q.1 ≠ src) ++ [(dest, pc.2)] }

/-! ### The execution phase (lines 86-135 of photos.py) -/

/-- Execution state: the filesystem, the errors reported so far, the
mutations performed so far, and the pending abort, if any. -/
structure ExecAcc where
  fs : FS
  errs : List Err
  trace : List Act
  abort : Option Abort
deriving DecidableEq, Repr

/-- One planned file transfer, the shape shared by lines 99-105, 107-114
and 129-135: a no-op when destination equals source; skipped with a
logged error when the destination path already exists; otherwise
os.rename, unless this is a dry run (the log-only binding). An os.rename
failure is an uncaught exception that aborts the run. repSrc is the
source path the error message reports (line 114 reports the raw file's
path rather than the sidecar's). -/
def doTransfer (env : CPath → CPath → Bool) (dryRun : Bool) (acc : ExecAcc)
    (src dest repSrc : CPath) : ExecAcc :=
  if acc.abort.isSome then acc else
  if dest ≠ src then
    if ¬ existsPath acc.fs dest then
      if dryRun then acc
      else match renameOp env acc.fs src dest with
        | none => { acc with abort := some (.renameFailed src dest) }
        | some fs1 => { acc with fs := fs1, trace := acc.trace ++ [.renameA src dest] }
    else { acc with errs := acc.errs ++ [.conflict repSrc dest] }
  else acc

/-- Process one raw file of a date group (lines 97-114): transfer the raw
file to outputRoot/dateKey/basename, then, when the sidecar index has an
entry under the raw file's basename, transfer that sidecar into the same
date directory under its own basename. (An abort raised by the raw
transfer freezes the sidecar transfer through doTransfer's guard.) -/
def execRawFile (env : CPath → CPath → Bool) (dryRun : Bool)
    (sidecars : List (String × CPath)) (k : String) (acc : ExecAcc) (f : CPath) :
    ExecAcc :=
  match dictGet sidecars (baseName f) with
  | none => doTransfer env dryRun acc f [k, baseName f] f
  | some sp =>
    doTransfer env dryRun (doTransfer env dryRun acc f [k, baseName f] f)
      sp [k, baseName sp] f

/-- The raw files of one date group, in scan order. -/
def execRawFiles (env : CPath → CPath → Bool) (dryRun : Bool)
    (sidecars : List (String × CPath)) (k : String) (acc : ExecAcc) :
    List CPath → ExecAcc
  | [] => acc
  | f :: rest => execRawFiles env dryRun sidecars k (execRawFile env dryRun sidecars k acc f) rest

/-- Run the continuation only when no abort is propagating (exception and
sys.exit semantics: an aborted state freezes everything after it). -/
def ifOk (acc : ExecAcc) (f : ExecAcc → ExecAcc) : ExecAcc :=
  if acc.abort.isSome then acc else f acc

/-- The directory-creation step of the raw pass (lines 86-95): when the
date key is not among the existing directories, os.makedirs it (skipped
on dry runs); on OSError the failure is logged and sys.exit aborts with a
message naming the failed path. -/
def execMkdirRaw (dryRun : Bool) (ex : List String) (k : String) (acc : ExecAcc) :
    ExecAcc :=
  if k ∈ ex then acc
  else if dryRun then acc
  else match makedirsOp acc.fs [k] with
    | none => { acc with errs := acc.errs ++ [.mkdirFail [k]],
                         abort := some (.mkdirFailed [k]) }
    | some fs1 => { acc with fs := fs1, trace := acc.trace ++ [.mkdirA [k]] }

/-- One date group of the raw pass (lines 86-114): ensure the date
directory, then process the group's files. -/
def execRawGroup (env : CPath → CPath → Bool) (dryRun : Bool) (ex : List String)
    (sidecars : List (String × CPath)) (acc : ExecAcc) (g : String × List CPath) :
    ExecAcc :=
  ifOk acc (fun a =>
    ifOk (execMkdirRaw dryRun ex g.1 a) (fun a1 =>
      execRawFiles env dryRun sidecars g.1 a1 g.2))

/-- The raw pass over all date groups in dict insertion order. -/
def execRawGroups (env : CPath → CPath → Bool) (dryRun : Bool) (ex : List String)
    (sidecars : List (String × CPath)) (acc : ExecAcc) :
    List (String × List CPath) → ExecAcc
  | [] => acc
  | g :: rest => execRawGroups env dryRun ex sidecars
      (execRawGroup env dryRun ex sidecars acc g) rest

/-- Process one preview file of a date group (lines 127-135): transfer it
to outputRoot/dateKey/jpg/basename. -/
def execJpgFile (env : CPath → CPath → Bool) (dryRun : Bool) (k : String)
    (acc : ExecAcc) (f : CPath) : ExecAcc :=
  doTransfer env dryRun acc f [k, "jpg", baseName f] f

/-- The preview files of one date group, in scan order. -/
def execJpgFiles (env : CPath → CPath → Bool) (dryRun : Bool) (k : String)
    (acc : ExecAcc) : List CPath → ExecAcc
  | [] => acc
  | f :: rest => execJpgFiles env dryRun k (execJpgFile env dryRun k acc f) rest

/-- The directory-creation step of the preview pass (lines 116-125): when
outputRoot/dateKey/jpg does not exist, os.makedirs it (skipped on dry
runs); on OSError the failure is logged and sys.exit aborts with a
message naming the failed path. -/
def execMkdirJpg (dryRun : Bool) (k : String) (acc : ExecAcc) : ExecAcc :=
  if ¬ existsPath acc.fs [k, "jpg"] then
    if dryRun then acc
    else match makedirsOp acc.fs [k, "jpg"] with
      | none => { acc with errs := acc.errs ++ [.mkdirFail [k, "jpg"]],
                           abort := some (.mkdirFailed [k, "jpg"]) }
      | some fs1 => { acc with fs := fs1, trace := acc.trace ++ [.mkdirA [k, "jpg"]] }
  else acc

/-- One date group of the preview pass (lines 116-135): ensure the jpg
subdirectory, then process the group's files. -/
def execJpgGroup (env : CPath → CPath → Bool) (dryRun : Bool) (acc : ExecAcc)
    (g : String × List CPath) : ExecAcc :=
  ifOk acc (fun a =>
    ifOk (execMkdirJpg dryRun g.1 a) (fun a1 =>
      execJpgFiles env dryRun g.1 a1 g.2))

/-- The preview pass over all date groups in dict insertion order. -/
def execJpgGroups (env : CPath → CPath → Bool) (dryRun : Bool) (acc : ExecAcc) :
    List (String × List CPath) → ExecAcc
  | [] => acc
  | g :: rest => execJpgGroups env dryRun (execJpgGroup env dryRun acc g) rest

/-- The outcome of one invocation of organize: the final filesystem, the
errors logged, the mutations performed, and whether the run terminated
abnormally (uncaught exception or sys.exit). -/
structure RunOut where
  fs : FS
  errs : List Err
  trace : List Act
  abort : Option Abort
deriving DecidableEq, Repr

/-- The whole execution phase: the raw pass then the preview pass over a
completed sort plan. -/
def execPlan (env : CPath → CPath → Bool) (dryRun : Bool) (fs : FS) (sa : ScanAcc) :
    ExecAcc :=
  execJpgGroups env dryRun
    (execRawGroups env dryRun sa.plan.existing sa.plan.sidecars
      ⟨fs, sa.errs, [], none⟩ sa.plan.raws)
    sa.plan.jpgs

/-- organizeInPlace (lines 49-135): scan the tree into a sort plan, then
run the raw pass and the preview pass. An abort during the scan reaches
the caller before any mutation; an abort during execution freezes the
remaining actions (the recursors above keep aborted states unchanged,
matching exception propagation). env injects external os.rename failures;
cameraRollDirectory is assumed normalized (no trailing separator), as
os.walk's first yielded root must compare equal to it for the
date-directory collection branch to run at all. -/
def organizeInPlace (env : CPath → CPath → Bool) (fs : FS)
    (cameraRollDirectory : String) (dryRun : Bool) : RunOut :=
  if (scan fs cameraRollDirectory).abort.isSome then
    ⟨fs, (scan fs cameraRollDirectory).errs, [], (scan fs cameraRollDirectory).abort⟩
  else
    ⟨(execPlan env dryRun fs (scan fs cameraRollDirectory)).fs,
     (execPlan env dryRun fs (scan fs cameraRollDirectory)).errs,
     (execPlan env dryRun fs (scan fs cameraRollDirectory)).trace,
     (execPlan env dryRun fs (scan fs cameraRollDirectory)).abort⟩

/-! ### Specification predicates (used by the idempotence analysis) -/

/-- Well-formed filesystem trees: the shapes every real directory tree
has. Directories are distinct, never the root itself, and closed under
parents; file paths are distinct, nonempty, never also directories, and
their parent directories exist. -/
def AncClosed (fs : FS) : Prop :=
  ∀ d ∈ fs.dirs, d ≠ [] ∧ (d.dropLast = [] ∨ d.dropLast ∈ fs.dirs)

def WF (fs : FS) : Prop :=
  fs.dirs.Nodup ∧ AncClosed fs ∧ (filePaths fs).Nodup ∧
  (∀ p ∈ filePaths fs, p ≠ []) ∧ (∀ p ∈ filePaths fs, p ∉ fs.dirs) ∧
  (∀ p ∈ filePaths fs, p.dropLast = [] ∨ p.dropLast ∈ fs.dirs)

/-- The capture date of a file's metadata: the EXIF field parsed with
EXIF_DATE_TOKEN_FORMAT (none when absent or unparsable). -/
def metaDate (c : Option String) : Option SDate := c.bind parseExifDate

/-- Membership of a file in a keyed group list. -/
def groupMem (gs : List (String × List CPath)) (k : String) (f : CPath) : Prop :=
  ∃ fl, (k, fl) ∈ gs ∧ f ∈ fl

/-- What the scan records about a raw-group entry: the file sits in a
walked, admitted directory, carries parsable metadata, and its group key
is the formatted capture date. -/
def RawScanned (fs : FS) (cr : String) (ex : List String) (k : String)
    (f : CPath) : Prop :=
  ∃ d n c, f = d ++ [n] ∧ d ∈ walk fs ∧ DirOK cr ex d ∧ (f, c) ∈ fs.files ∧
    roleOf n = .rawR ∧ ∃ dt, metaDate c = some dt ∧ k = formatDateKey dt

/-- What the scan records about a preview-group entry. -/
def JpgScanned (fs : FS) (cr : String) (ex : List String) (k : String)
    (f : CPath) : Prop :=
  ∃ d n c, f = d ++ [n] ∧ d ∈ walk fs ∧ DirOK cr ex d ∧ (f, c) ∈ fs.files ∧
    roleOf n = .jpgR ∧ ∃ dt, metaDate c = some dt ∧ k = formatDateKey dt

/-- Provenance of a file entry across the execution phase: it is an
original entry, or a raw file moved to its date directory, or a sidecar
moved next to its raw file, or a preview moved into its jpg
subdirectory — always carrying an original content. -/
def Provenance (fs0 : FS) (sc : List (String × CPath))
    (raws jpgs : List (String × List CPath)) (p : CPath) (c : Option String) :
    Prop :=
  (p, c) ∈ fs0.files ∨
  (∃ k f, groupMem raws k f ∧ p = [k, baseName f] ∧ (f, c) ∈ fs0.files) ∨
  (∃ k f sp, groupMem raws k f ∧ dictGet sc (baseName f) = some sp ∧
    p = [k, baseName sp] ∧ (sp, c) ∈ fs0.files) ∨
  (∃ k f, groupMem jpgs k f ∧ p = [k, "jpg", baseName f] ∧ (f, c) ∈ fs0.files)

/-- A raw-group entry (and its associated sidecar, when one resolves) is
settled in a state: destination occupied by the original content, source
gone unless it was already the destination. -/
def RawSettled (fs0 : FS) (sc : List (String × CPath)) (st : FS) (k : String)
    (f : CPath) : Prop :=
  (∀ c, (f, c) ∈ fs0.files → ([k, baseName f], c) ∈ st.files) ∧
  (f ≠ [k, baseName f] → ∀ c, (f, c) ∉ st.files) ∧
  (∀ sp, dictGet sc (baseName f) = some sp →
    (∀ c, (sp, c) ∈ fs0.files → ([k, baseName sp], c) ∈ st.files) ∧
    (sp ≠ [k, baseName sp] → ∀ c, (sp, c) ∉ st.files))

/-- A preview-group entry is settled in a state. -/
def JpgSettled (fs0 : FS) (st : FS) (k : String) (f : CPath) : Prop :=
  (∀ c, (f, c) ∈ fs0.files → ([k, "jpg", baseName f], c) ∈ st.files) ∧
  (f ≠ [k, "jpg", baseName f] → ∀ c, (f, c) ∉ st.files)

/-- A path is still untouched: whatever the original tree held there is
still there. -/
def Pending (fs0 : FS) (st : FS) (f : CPath) : Prop :=
  ∀ c, (f, c) ∈ fs0.files → (f, c) ∈ st.files

/-!
## Theorems

First a toolbox of small lemmas about the scan and execution recursions,
then one theorem per specification claim.
-/


/-! ### Frozen accumulators: a propagating abort stops all further work -/

theorem scanFile_frozen {d : CPath} {acc : ScanAcc} {nc : String × Option String}
    (h : acc.abort.isSome) : scanFile d acc nc = acc := by
  unfold scanFile
  simp [h]

theorem scanFiles_frozen {d : CPath} {acc : ScanAcc} {l : List (String × Option String)}
    (h : acc.abort.isSome) : scanFiles d acc l = acc := by
  induction l with
  | nil => rfl
  | cons nc rest ih => rw [scanFiles, scanFile_frozen h]; exact ih

theorem scanDir_frozen {fs : FS} {cr : String} {ex : List String} {acc : ScanAcc}
    {d : CPath} (h : acc.abort.isSome) : scanDir fs cr ex acc d = acc := by
  unfold scanDir
  simp [h]

theorem scanDirs_frozen {fs : FS} {cr : String} {ex : List String} {acc : ScanAcc}
    {l : List CPath} (h : acc.abort.isSome) : scanDirs fs cr ex acc l = acc := by
  induction l with
  | nil => rfl
  | cons d rest ih => rw [scanDirs, scanDir_frozen h]; exact ih

theorem doTransfer_frozen {env : CPath → CPath → Bool} {dryRun : Bool} {acc : ExecAcc}
    {src dest repSrc : CPath} (h : acc.abort.isSome) :
    doTransfer env dryRun acc src dest repSrc = acc := by
  unfold doTransfer
  simp [h]

theorem execRawFile_frozen {env : CPath → CPath → Bool} {dryRun : Bool}
    {sc : List (String × CPath)} {k : String} {acc : ExecAcc} {f : CPath}
    (h : acc.abort.isSome) : execRawFile env dryRun sc k acc f = acc := by
  unfold execRawFile
  cases dictGet sc (baseName f) with
  | none => exact doTransfer_frozen h
  | some sp =>
    rw [doTransfer_frozen h]
    exact doTransfer_frozen h

theorem execRawFiles_frozen {env : CPath → CPath → Bool} {dryRun : Bool}
    {sc : List (String × CPath)} {k : String} {acc : ExecAcc} {l : List CPath}
    (h : acc.abort.isSome) : execRawFiles env dryRun sc k acc l = acc := by
  induction l with
  | nil => rfl
  | cons f rest ih => rw [execRawFiles, execRawFile_frozen h]; exact ih

theorem ifOk_frozen {acc : ExecAcc} {f : ExecAcc → ExecAcc} (h : acc.abort.isSome) :
    ifOk acc f = acc := by
  unfold ifOk
  simp [h]

theorem ifOk_ok {acc : ExecAcc} {f : ExecAcc → ExecAcc} (h : acc.abort = none) :
    ifOk acc f = f acc := by
  unfold ifOk
  simp [h]

theorem execRawGroup_frozen {env : CPath → CPath → Bool} {dryRun : Bool}
    {ex : List String} {sc : List (String × CPath)} {acc : ExecAcc}
    {g : String × List CPath} (h : acc.abort.isSome) :
    execRawGroup env dryRun ex sc acc g = acc := by
  unfold execRawGroup
  exact ifOk_frozen h

theorem execRawGroups_frozen {env : CPath → CPath → Bool} {dryRun : Bool}
    {ex : List String} {sc : List (String × CPath)} {acc : ExecAcc}
    {l : List (String × List CPath)} (h : acc.abort.isSome) :
    execRawGroups env dryRun ex sc acc l = acc := by
  induction l with
  | nil => rfl
  | cons g rest ih => rw [execRawGroups, execRawGroup_frozen h]; exact ih

theorem execJpgFile_frozen {env : CPath → CPath → Bool} {dryRun : Bool} {k : String}
    {acc : ExecAcc} {f : CPath} (h : acc.abort.isSome) :
    execJpgFile env dryRun k acc f = acc := doTransfer_frozen h

theorem execJpgFiles_frozen {env : CPath → CPath → Bool} {dryRun : Bool} {k : String}
    {acc : ExecAcc} {l : List CPath} (h : acc.abort.isSome) :
    execJpgFiles env dryRun k acc l = acc := by
  induction l with
  | nil => rfl
  | cons f rest ih => rw [execJpgFiles, execJpgFile_frozen h]; exact ih

theorem execJpgGroup_frozen {env : CPath → CPath → Bool} {dryRun : Bool} {acc : ExecAcc}
    {g : String × List CPath} (h : acc.abort.isSome) :
    execJpgGroup env dryRun acc g = acc := by
  unfold execJpgGroup
  exact ifOk_frozen h

theorem execJpgGroups_frozen {env : CPath → CPath → Bool} {dryRun : Bool} {acc : ExecAcc}
    {l : List (String × List CPath)} (h : acc.abort.isSome) :
    execJpgGroups env dryRun acc l = acc := by
  induction l with
  | nil => rfl
  | cons g rest ih => rw [execJpgGroups, execJpgGroup_frozen h]; exact ih

/-! ### Dry runs mutate nothing -/

theorem doTransfer_dry {env : CPath → CPath → Bool} {acc : ExecAcc}
    {src dest repSrc : CPath} :
    (doTransfer env true acc src dest repSrc).fs = acc.fs ∧
    (doTransfer env true acc src dest repSrc).trace = acc.trace ∧
    (doTransfer env true acc src dest repSrc).abort = acc.abort := by
  unfold doTransfer
  split
  · exact ⟨rfl, rfl, rfl⟩
  · split
    · split
      · simp
      · exact ⟨rfl, rfl, rfl⟩
    · exact ⟨rfl, rfl, rfl⟩

theorem execRawFile_dry {env : CPath → CPath → Bool} {sc : List (String × CPath)}
    {k : String} {acc : ExecAcc} {f : CPath} :
    (execRawFile env true sc k acc f).fs = acc.fs ∧
    (execRawFile env true sc k acc f).trace = acc.trace ∧
    (execRawFile env true sc k acc f).abort = acc.abort := by
  unfold execRawFile
  cases dictGet sc (baseName f) with
  | none => exact doTransfer_dry
  | some sp =>
    refine ⟨?_, ?_, ?_⟩
    · rw [doTransfer_dry.1, doTransfer_dry.1]
    · rw [doTransfer_dry.2.1, doTransfer_dry.2.1]
    · rw [doTransfer_dry.2.2, doTransfer_dry.2.2]

theorem execRawFiles_dry {env : CPath → CPath → Bool} {sc : List (String × CPath)}
    {k : String} {acc : ExecAcc} {l : List CPath} :
    (execRawFiles env true sc k acc l).fs = acc.fs ∧
    (execRawFiles env true sc k acc l).trace = acc.trace ∧
    (execRawFiles env true sc k acc l).abort = acc.abort := by
  induction l generalizing acc with
  | nil => exact ⟨rfl, rfl, rfl⟩
  | cons f rest ih =>
    rw [execRawFiles]
    refine ⟨?_, ?_, ?_⟩
    · rw [ih.1, execRawFile_dry.1]
    · rw [ih.2.1, execRawFile_dry.2.1]
    · rw [ih.2.2, execRawFile_dry.2.2]

theorem execMkdirRaw_dry {ex : List String} {k : String} {acc : ExecAcc} :
    execMkdirRaw true ex k acc = acc := by
  unfold execMkdirRaw
  split
  · rfl
  · simp

theorem execMkdirJpg_dry {k : String} {acc : ExecAcc} :
    execMkdirJpg true k acc = acc := by
  unfold execMkdirJpg
  split
  · simp
  · rfl

theorem execRawGroup_dry {env : CPath → CPath → Bool} {ex : List String}
    {sc : List (String × CPath)} {acc : ExecAcc} {g : String × List CPath} :
    (execRawGroup env true ex sc acc g).fs = acc.fs ∧
    (execRawGroup env true ex sc acc g).trace = acc.trace ∧
    (execRawGroup env true ex sc acc g).abort = acc.abort := by
  unfold execRawGroup
  by_cases h : acc.abort.isSome
  · rw [ifOk_frozen h]; exact ⟨rfl, rfl, rfl⟩
  · rw [ifOk_ok (Option.not_isSome_iff_eq_none.mp h), execMkdirRaw_dry,
      ifOk_ok (Option.not_isSome_iff_eq_none.mp h)]
    exact execRawFiles_dry

theorem execRawGroups_dry {env : CPath → CPath → Bool} {ex : List String}
    {sc : List (String × CPath)} {acc : ExecAcc} {l : List (String × List CPath)} :
    (execRawGroups env true ex sc acc l).fs = acc.fs ∧
    (execRawGroups env true ex sc acc l).trace = acc.trace ∧
    (execRawGroups env true ex sc acc l).abort = acc.abort := by
  induction l generalizing acc with
  | nil => exact ⟨rfl, rfl, rfl⟩
  | cons g rest ih =>
    rw [execRawGroups]
    refine ⟨?_, ?_, ?_⟩
    · rw [ih.1, execRawGroup_dry.1]
    · rw [ih.2.1, execRawGroup_dry.2.1]
    · rw [ih.2.2, execRawGroup_dry.2.2]

theorem execJpgFile_dry {env : CPath → CPath → Bool} {k : String} {acc : ExecAcc}
    {f : CPath} :
    (execJpgFile env true k acc f).fs = acc.fs ∧
    (execJpgFile env true k acc f).trace = acc.trace ∧
    (execJpgFile env true k acc f).abort = acc.abort := doTransfer_dry

theorem execJpgFiles_dry {env : CPath → CPath → Bool} {k : String} {acc : ExecAcc}
    {l : List CPath} :
    (execJpgFiles env true k acc l).fs = acc.fs ∧
    (execJpgFiles env true k acc l).trace = acc.trace ∧
    (execJpgFiles env true k acc l).abort = acc.abort := by
  induction l generalizing acc with
  | nil => exact ⟨rfl, rfl, rfl⟩
  | cons f rest ih =>
    rw [execJpgFiles]
    refine ⟨?_, ?_, ?_⟩
    · rw [ih.1, execJpgFile_dry.1]
    · rw [ih.2.1, execJpgFile_dry.2.1]
    · rw [ih.2.2, execJpgFile_dry.2.2]

theorem execJpgGroup_dry {env : CPath → CPath → Bool} {acc : ExecAcc}
    {g : String × List CPath} :
    (execJpgGroup env true acc g).fs = acc.fs ∧
    (execJpgGroup env true acc g).trace = acc.trace ∧
    (execJpgGroup env true acc g).abort = acc.abort := by
  unfold execJpgGroup
  by_cases h : acc.abort.isSome
  · rw [ifOk_frozen h]; exact ⟨rfl, rfl, rfl⟩
  · rw [ifOk_ok (Option.not_isSome_iff_eq_none.mp h), execMkdirJpg_dry,
      ifOk_ok (Option.not_isSome_iff_eq_none.mp h)]
    exact execJpgFiles_dry

theorem execJpgGroups_dry {env : CPath → CPath → Bool} {acc : ExecAcc}
    {l : List (String × List CPath)} :
    (execJpgGroups env true acc l).fs = acc.fs ∧
    (execJpgGroups env true acc l).trace = acc.trace ∧
    (execJpgGroups env true acc l).abort = acc.abort := by
  induction l generalizing acc with
  | nil => exact ⟨rfl, rfl, rfl⟩
  | cons g rest ih =>
    rw [execJpgGroups]
    refine ⟨?_, ?_, ?_⟩
    · rw [ih.1, execJpgGroup_dry.1]
    · rw [ih.2.1, execJpgGroup_dry.2.1]
    · rw [ih.2.2, execJpgGroup_dry.2.2]

/-- C8: with the dry-run flag set, organizeInPlace performs no filesystem
mutation whatsoever on any input tree and any environment: no directory
is created, no file is renamed, the trace of performed actions is empty
and the filesystem is returned exactly as it was — the planned actions
are only logged. -/
theorem C8_dry_run_mutates_nothing (env : CPath → CPath → Bool) (fs : FS)
    (cr : String) :
    (organizeInPlace env fs cr true).fs = fs ∧
    (organizeInPlace env fs cr true).trace = [] := by
  unfold organizeInPlace
  split
  · exact ⟨rfl, rfl⟩
  · constructor
    · show (execPlan env true fs (scan fs cr)).fs = fs
      unfold execPlan
      rw [execJpgGroups_dry.1, execRawGroups_dry.1]
    · show (execPlan env true fs (scan fs cr)).trace = []
      unfold execPlan
      rw [execJpgGroups_dry.2.1, execRawGroups_dry.2.1]

/-! ### Directory-creation failure is fatal (C6) -/

/-- C6: in either pass, when a date group's target directory must be
created (raw pass: its key is not among the existing date directories;
preview pass: the jpg subdirectory does not exist) and os.makedirs fails,
the run terminates at once: the failure is logged with a diagnostic
naming the failed path, the abort marker (modelling sys.exit's non-zero
termination) carries that path, and no later action of the run executes —
the remaining files of the group, all later groups and the whole rest of
the run leave the state exactly as it was at the failure. -/
theorem C6_mkdir_failure_aborts_run (env : CPath → CPath → Bool) (ex : List String)
    (sc : List (String × CPath)) (acc : ExecAcc) (k : String) (files : List CPath)
    (h0 : acc.abort = none) :
    (k ∉ ex → makedirsOp acc.fs [k] = none →
      (execRawGroup env false ex sc acc (k, files) =
        { acc with errs := acc.errs ++ [.mkdirFail [k]],
                   abort := some (.mkdirFailed [k]) } ∧
       ∀ rest jgs,
         execJpgGroups env false
           (execRawGroups env false ex sc
             (execRawGroup env false ex sc acc (k, files)) rest) jgs =
         { acc with errs := acc.errs ++ [.mkdirFail [k]],
                    abort := some (.mkdirFailed [k]) })) ∧
    (¬ existsPath acc.fs [k, "jpg"] → makedirsOp acc.fs [k, "jpg"] = none →
      (execJpgGroup env false acc (k, files) =
        { acc with errs := acc.errs ++ [.mkdirFail [k, "jpg"]],
                   abort := some (.mkdirFailed [k, "jpg"]) } ∧
       ∀ jgs,
         execJpgGroups env false (execJpgGroup env false acc (k, files)) jgs =
         { acc with errs := acc.errs ++ [.mkdirFail [k, "jpg"]],
                    abort := some (.mkdirFailed [k, "jpg"]) })) := by
  constructor
  · intro h1 h2
    have hgrp : execRawGroup env false ex sc acc (k, files) =
        { acc with errs := acc.errs ++ [.mkdirFail [k]],
                   abort := some (.mkdirFailed [k]) } := by
      unfold execRawGroup
      rw [ifOk_ok h0]
      have hmk : execMkdirRaw false ex k acc =
          { acc with errs := acc.errs ++ [.mkdirFail [k]],
                     abort := some (.mkdirFailed [k]) } := by
        unfold execMkdirRaw
        simp [h1, h2]
      rw [hmk]
      exact ifOk_frozen rfl
    refine ⟨hgrp, fun rest jgs => ?_⟩
    have hf : (execRawGroup env false ex sc acc (k, files)).abort.isSome = true := by
      rw [hgrp]
      rfl
    rw [execRawGroups_frozen hf, execJpgGroups_frozen hf]
    exact hgrp
  · intro h1 h2
    have hgrp : execJpgGroup env false acc (k, files) =
        { acc with errs := acc.errs ++ [.mkdirFail [k, "jpg"]],
                   abort := some (.mkdirFailed [k, "jpg"]) } := by
      unfold execJpgGroup
      rw [ifOk_ok h0]
      have hmk : execMkdirJpg false k acc =
          { acc with errs := acc.errs ++ [.mkdirFail [k, "jpg"]],
                     abort := some (.mkdirFailed [k, "jpg"]) } := by
        unfold execMkdirJpg
        simp [h1, h2]
      rw [hmk]
      exact ifOk_frozen rfl
    refine ⟨hgrp, fun jgs => ?_⟩
    have hf : (execJpgGroup env false acc (k, files)).abort.isSome = true := by
      rw [hgrp]
      rfl
    rw [execJpgGroups_frozen hf]
    exact hgrp

/-- Witness for C6: a tree whose root holds a regular file named like the
date key 03-16-2023, so that os.makedirs of that directory fails; the raw
group for that key aborts the run immediately, with no later action. -/
theorem C6_mkdir_failure_aborts_run_witness :
    execRawGroup (fun _ _ => false) false [] []
        ⟨⟨[], [(["03-16-2023"], none)]⟩, [], [], none⟩ ("03-16-2023", [["a.cr2"]]) =
      { fs := ⟨[], [(["03-16-2023"], none)]⟩,
        errs := [.mkdirFail ["03-16-2023"]], trace := [],
        abort := some (.mkdirFailed ["03-16-2023"]) } := by
  have h := (C6_mkdir_failure_aborts_run (fun _ _ => false) [] []
    ⟨⟨[], [(["03-16-2023"], none)]⟩, [], [], none⟩ "03-16-2023" [["a.cr2"]] rfl).1
    (by decide) (by decide)
  exact h.1

/-! ### Transfer failures other than the destination check abort the run (C5) -/

/-- C5 counterexample: the claim says an individual transfer failure (for
causes other than the destination-exists check, e.g. a permission error)
is reported for that file only and does not abort the run, with all
remaining transfers still attempted. In the source, os.rename at line 103
is not wrapped in any try/except, so the first failing transfer raises an
uncaught OSError. Concretely: two raw files a.cr2 and b.cr2 at the root,
both dated 03-15-2023 with that date directory already present; the
environment makes the transfer of a.cr2 fail. The run aborts with nothing
logged per-file, b.cr2 is left at the root untransferred, and the trace
is empty — contradicting both the per-file report and the continuation. -/
theorem C5_counterexample :
    organizeInPlace
        (fun src _ => src = ["a.cr2"])
        ⟨[["03-15-2023"]],
         [(["a.cr2"], some "2023:03:15 01:02:03"),
          (["b.cr2"], some "2023:03:15 01:02:03")]⟩
        "roll" false =
      ⟨⟨[["03-15-2023"]],
        [(["a.cr2"], some "2023:03:15 01:02:03"),
         (["b.cr2"], some "2023:03:15 01:02:03")]⟩,
       [], [],
       some (.renameFailed ["a.cr2"] ["03-15-2023", "a.cr2"])⟩ := by
  decide

/-- C5 as amended: a failure of an individual file transfer for causes
other than the planner's destination-exists check (permission error,
race) raises an uncaught OSError that aborts the entire run at that file:
nothing is logged for it, the filesystem and trace stay as they were, and
no remaining transfer of that date group or of any later group is
attempted. (Only the destination-exists case is reported per-file without
stopping the run.) Stated for the raw pass; the preview pass shares
doTransfer and behaves identically. -/
theorem C5_transfer_failure_aborts_run (env : CPath → CPath → Bool)
    (sc : List (String × CPath)) (ex : List String) (k : String) (acc : ExecAcc)
    (f : CPath) (rest : List CPath)
    (h0 : acc.abort = none)
    (hne : [k, baseName f] ≠ f)
    (hex : ¬ existsPath acc.fs [k, baseName f])
    (hfail : renameOp env acc.fs f [k, baseName f] = none) :
    execRawFiles env false sc k acc (f :: rest) =
      { acc with abort := some (.renameFailed f [k, baseName f]) } ∧
    ∀ gs jgs,
      execJpgGroups env false
        (execRawGroups env false ex sc
          (execRawFiles env false sc k acc (f :: rest)) gs) jgs =
      { acc with abort := some (.renameFailed f [k, baseName f]) } := by
  have hstep : execRawFile env false sc k acc f =
      { acc with abort := some (.renameFailed f [k, baseName f]) } := by
    have hdo : doTransfer env false acc f [k, baseName f] f =
        { acc with abort := some (.renameFailed f [k, baseName f]) } := by
      unfold doTransfer
      rw [if_neg (by simp [h0]), if_pos hne, if_pos hex, if_neg (by simp), hfail]
    unfold execRawFile
    cases dictGet sc (baseName f) with
    | none => exact hdo
    | some sp =>
      rw [hdo]
      exact doTransfer_frozen rfl
  have hfiles : execRawFiles env false sc k acc (f :: rest) =
      { acc with abort := some (.renameFailed f [k, baseName f]) } := by
    rw [execRawFiles, hstep]
    exact execRawFiles_frozen rfl
  refine ⟨hfiles, fun gs jgs => ?_⟩
  have hf : (execRawFiles env false sc k acc (f :: rest)).abort.isSome = true := by
    rw [hfiles]
    rfl
  rw [execRawGroups_frozen hf, execJpgGroups_frozen hf]
  exact hfiles

/-- Witness for C5 as amended: the failing transfer of the counterexample
tree, applied at the group level. -/
theorem C5_transfer_failure_aborts_run_witness :
    execRawFiles (fun src _ => src = ["a.cr2"]) false [] "03-15-2023"
        ⟨⟨[["03-15-2023"]],
          [(["a.cr2"], some "2023:03:15 01:02:03"),
           (["b.cr2"], some "2023:03:15 01:02:03")]⟩, [], [], none⟩
        [["a.cr2"], ["b.cr2"]] =
      ⟨⟨[["03-15-2023"]],
        [(["a.cr2"], some "2023:03:15 01:02:03"),
         (["b.cr2"], some "2023:03:15 01:02:03")]⟩, [], [],
       some (.renameFailed ["a.cr2"] ["03-15-2023", "a.cr2"])⟩ :=
  (C5_transfer_failure_aborts_run (fun src _ => src = ["a.cr2"]) [] [] "03-15-2023"
    ⟨⟨[["03-15-2023"]],
      [(["a.cr2"], some "2023:03:15 01:02:03"),
       (["b.cr2"], some "2023:03:15 01:02:03")]⟩, [], [], none⟩
    ["a.cr2"] [["b.cr2"]] rfl (by decide) (by decide) (by decide)).1

/-! ### Metadata failures abort the scan (C2) -/

/-- A raw or preview file whose metadata cannot produce a date: the field
is absent (KeyError on the exifread tags) or present but not in
EXIF_DATE_TOKEN_FORMAT (ValueError from strptime). -/
theorem scanFile_metadata_aborts {d : CPath} {acc : ScanAcc}
    {nc : String × Option String}
    (hrole : roleOf nc.1 = .rawR ∨ roleOf nc.1 = .jpgR)
    (hbad : ∀ s, nc.2 = some s → parseExifDate s = none) :
    (scanFile d acc nc).abort.isSome := by
  by_cases h : acc.abort.isSome
  · rw [scanFile_frozen h]; exact h
  · unfold scanFile
    rcases hrole with hr | hr
    · cases hc : nc.2 with
      | none => simp [h, hr, hc]
      | some s => simp [h, hr, hc, hbad s hc]
    · cases hc : nc.2 with
      | none => simp [h, hr, hc]
      | some s => simp [h, hr, hc, hbad s hc]

theorem scanFiles_metadata_aborts {d : CPath} {acc : ScanAcc}
    {l : List (String × Option String)} {nc : String × Option String}
    (hmem : nc ∈ l)
    (hrole : roleOf nc.1 = .rawR ∨ roleOf nc.1 = .jpgR)
    (hbad : ∀ s, nc.2 = some s → parseExifDate s = none) :
    (scanFiles d acc l).abort.isSome := by
  induction l generalizing acc with
  | nil => cases hmem
  | cons hd rest ih =>
    rw [scanFiles]
    rcases List.mem_cons.mp hmem with he | hm
    · subst he
      have h1 : (scanFile d acc nc).abort.isSome :=
        scanFile_metadata_aborts hrole hbad
      rw [scanFiles_frozen h1]
      exact h1
    · exact ih hm

theorem scanDirs_metadata_aborts {fs : FS} {cr : String} {ex : List String}
    {acc : ScanAcc} {l : List CPath} {d : CPath} {nc : String × Option String}
    (hmem : d ∈ l)
    (hd : d = [] ∨ ex.any (fun k => strContains (renderPath cr d) k))
    (hfile : nc ∈ filesIn fs d)
    (hrole : roleOf nc.1 = .rawR ∨ roleOf nc.1 = .jpgR)
    (hbad : ∀ s, nc.2 = some s → parseExifDate s = none) :
    (scanDirs fs cr ex acc l).abort.isSome := by
  induction l generalizing acc with
  | nil => cases hmem
  | cons hd0 rest ih =>
    rw [scanDirs]
    rcases List.mem_cons.mp hmem with he | hm
    · subst he
      have h1 : (scanDir fs cr ex acc d).abort.isSome := by
        by_cases hab : acc.abort.isSome
        · rw [scanDir_frozen hab]; exact hab
        · unfold scanDir
          rw [if_neg hab]
          rcases hd with hroot | hwl
          · rw [if_pos hroot]
            exact scanFiles_metadata_aborts hfile hrole hbad
          · by_cases hroot : d = []
            · rw [if_pos hroot]
              exact scanFiles_metadata_aborts hfile hrole hbad
            · rw [if_neg hroot, if_pos hwl]
              exact scanFiles_metadata_aborts hfile hrole hbad
      rw [scanDirs_frozen h1]
      exact h1
    · exact ih hm

/-- C2 counterexample: the claim says a metadata failure on one raw or
preview file is reported, excludes only that file, and the scan continues
over the remaining files without aborting the run. In the source nothing
catches the KeyError of tags["Image DateTime"] (line 146) or the
ValueError of strptime (line 80). Concretely: a.cr2 has no Image DateTime
field and b.cr2 is perfectly fine; the run aborts with an uncaught
exception before b.cr2 is even scanned — nothing is grouped, nothing is
logged, nothing is transferred. -/
theorem C2_counterexample :
    organizeInPlace (fun _ _ => false)
        ⟨[], [(["a.cr2"], none), (["b.cr2"], some "2023:03:15 01:02:03")]⟩
        "roll" false =
      ⟨⟨[], [(["a.cr2"], none), (["b.cr2"], some "2023:03:15 01:02:03")]⟩,
       [], [], some (.metadataMissing ["a.cr2"])⟩ ∧
    (scan ⟨[], [(["a.cr2"], none), (["b.cr2"], some "2023:03:15 01:02:03")]⟩
        "roll").plan.raws = [] := by
  constructor
  · decide
  · decide

/-- C2 as amended: a failure to read or parse the capture-date metadata of
any raw or preview file in a scanned directory (the root, or a directory
passing the date-name whitelist) raises an uncaught exception that aborts
the scan and with it the whole run: the filesystem is left untouched, no
transfer is performed, and the remaining files are not scanned (the scan
recursion freezes once the abort marker is set). -/
theorem C2_metadata_failure_aborts_run (env : CPath → CPath → Bool) (fs : FS)
    (cr : String) (dryRun : Bool) (d : CPath) (nc : String × Option String)
    (hmem : d ∈ walk fs)
    (hd : d = [] ∨ (existingOf fs).any (fun k => strContains (renderPath cr d) k))
    (hfile : nc ∈ filesIn fs d)
    (hrole : roleOf nc.1 = .rawR ∨ roleOf nc.1 = .jpgR)
    (hbad : ∀ s, nc.2 = some s → parseExifDate s = none) :
    (organizeInPlace env fs cr dryRun).fs = fs ∧
    (organizeInPlace env fs cr dryRun).trace = [] ∧
    (organizeInPlace env fs cr dryRun).abort.isSome := by
  have habort : (scan fs cr).abort.isSome :=
    scanDirs_metadata_aborts hmem hd hfile hrole hbad
  unfold organizeInPlace
  rw [if_pos habort]
  exact ⟨rfl, rfl, habort⟩

/-- Witness for C2 as amended, at the counterexample tree. -/
theorem C2_metadata_failure_aborts_run_witness :
    (organizeInPlace (fun _ _ => false)
        ⟨[], [(["a.cr2"], none), (["b.cr2"], some "2023:03:15 01:02:03")]⟩
        "roll" false).fs =
      ⟨[], [(["a.cr2"], none), (["b.cr2"], some "2023:03:15 01:02:03")]⟩ ∧
    (organizeInPlace (fun _ _ => false)
        ⟨[], [(["a.cr2"], none), (["b.cr2"], some "2023:03:15 01:02:03")]⟩
        "roll" false).trace = [] ∧
    (organizeInPlace (fun _ _ => false)
        ⟨[], [(["a.cr2"], none), (["b.cr2"], some "2023:03:15 01:02:03")]⟩
        "roll" false).abort.isSome :=
  C2_metadata_failure_aborts_run (fun _ _ => false)
    ⟨[], [(["a.cr2"], none), (["b.cr2"], some "2023:03:15 01:02:03")]⟩
    "roll" false [] (("a.cr2", none))
    (by decide) (Or.inl rfl) (by decide) (Or.inl (by decide))
    (fun s hs => by cases hs)

/-! ### No existing file is ever overwritten (C1) -/

theorem contentsPreserved_refl {a : FS} : ContentsPreserved a a :=
  fun h => ⟨h, List.Perm.refl _⟩

theorem contentsPreserved_trans {a b c : FS}
    (h1 : ContentsPreserved a b) (h2 : ContentsPreserved b c) :
    ContentsPreserved a c := by
  intro hnd
  obtain ⟨hnd1, hp1⟩ := h1 hnd
  obtain ⟨hnd2, hp2⟩ := h2 hnd1
  exact ⟨hnd2, hp2.trans hp1⟩

/-- Extracting the unique entry at a key from a functional association
list is a permutation. -/
theorem perm_extract {src : CPath} {c : Option String}
    {l : List (CPath × Option String)}
    (hnd : (l.map Prod.fst).Nodup) (hmem : (src, c) ∈ l) :
    l.Perm ((src, c) :: l.filter (fun q => q.1 ≠ src)) := by
  induction l with
  | nil => cases hmem
  | cons hd t ih =>
    rw [List.map_cons, List.nodup_cons] at hnd
    rcases List.mem_cons.mp hmem with he | hm
    · subst he
      have hall : ∀ q ∈ t, (fun q => decide (q.1 ≠ src)) q = true := by
        intro q hq
        simp only [decide_eq_true_eq]
        intro hqe
        apply hnd.1
        rw [← hqe]
        exact List.mem_map.mpr ⟨q, hq, rfl⟩
      rw [List.filter_cons_of_neg (by simp), List.filter_eq_self.mpr hall]
    · have hd1 : hd.1 ≠ src := by
        intro he
        apply hnd.1
        rw [he]
        exact List.mem_map.mpr ⟨(src, c), hm, rfl⟩
      rw [List.filter_cons_of_pos (by simpa using hd1)]
      exact ((ih hnd.2 hm).cons hd).trans (List.Perm.swap _ _ _)

/-- A successful os.rename extracts the source entry and appends it at the
destination, leaving directories alone. -/
theorem renameOp_shape {env : CPath → CPath → Bool} {s : FS} {src dest : CPath}
    {s1 : FS} (h : renameOp env s src dest = some s1) :
    ∃ c, (src, c) ∈ s.files ∧
      s1.files = s.files.filter (fun q => q.1 ≠ src) ++ [(dest, c)] ∧
      s1.dirs = s.dirs := by
  unfold renameOp at h
  split at h
  · cases h
  · cases hf : s.files.find? (fun pc => pc.1 = src) with
    | none => simp only [hf] at h; cases h
    | some pc =>
      simp only [hf] at h
      by_cases hin : dest.dropLast ≠ [] ∧ ¬ s.dirs.contains dest.dropLast = true
      · rw [if_pos hin] at h; cases h
      · rw [if_neg hin] at h
        have hp : pc.1 = src := by simpa using List.find?_some hf
        have hm : pc ∈ s.files := List.mem_of_find?_eq_some hf
        injection h with h1
        refine ⟨pc.2, ?_, ?_, ?_⟩
        · rw [← hp]; exact hm
        · rw [← h1]
        · rw [← h1]

/-- A path that os.path.exists rejects is not a file path. -/
theorem not_filePath_of_not_existsPath {s : FS} {p : CPath}
    (h : ¬ existsPath s p = true) : p ∉ filePaths s := by
  intro hmem
  apply h
  unfold existsPath
  refine Bool.or_eq_true _ _ |>.mpr (Or.inr ?_)
  rcases List.mem_map.mp hmem with ⟨pc, hpc, he⟩
  exact List.any_eq_true.mpr ⟨pc, hpc, by simp [he]⟩

/-- A successful os.rename to a fresh destination preserves distinctness
of file paths and the multiset of file contents. -/
theorem renameOp_contents {env : CPath → CPath → Bool} {s : FS} {src dest : CPath}
    {s1 : FS} (hdest : ¬ existsPath s dest = true)
    (h : renameOp env s src dest = some s1) :
    ContentsPreserved s s1 := by
  intro hnd
  obtain ⟨c, hmem, hfiles, _⟩ := renameOp_shape h
  have hperm := perm_extract hnd hmem
  constructor
  · unfold filePaths
    rw [hfiles, List.map_append]
    apply List.Nodup.append
    · exact hnd.sublist ((List.filter_sublist s.files).map Prod.fst)
    · exact List.nodup_singleton _
    · intro a ha hb
      rcases List.mem_singleton.mp hb with rfl
      have : a ∈ (s.files.map Prod.fst) :=
        (List.Sublist.map Prod.fst (List.filter_sublist s.files)).mem ha
      exact not_filePath_of_not_existsPath hdest this
  · rw [hfiles, List.map_append]
    refine (List.perm_append_singleton _ _).trans ?_
    have := (hperm.map Prod.snd).symm
    simpa using this

/-- os.makedirs never touches regular files. -/
theorem makedirsOp_files {s : FS} {p : CPath} {s1 : FS}
    (h : makedirsOp s p = some s1) : s1.files = s.files := by
  unfold makedirsOp at h
  split at h
  · cases h
  · cases h; rfl

/-- C1 conjunct A, in step form: one planned transfer whose destination
already exists and differs from the source is skipped — the filesystem,
the trace and the abort flag are untouched — and reported through
logger.error as a conflict. -/
theorem doTransfer_conflict {env : CPath → CPath → Bool} {dryRun : Bool}
    {acc : ExecAcc} {src dest repSrc : CPath}
    (h0 : acc.abort = none) (hne : dest ≠ src)
    (hex : existsPath acc.fs dest = true) :
    doTransfer env dryRun acc src dest repSrc =
      { acc with errs := acc.errs ++ [.conflict repSrc dest] } := by
  unfold doTransfer
  rw [if_neg (by simp [h0]), if_pos hne, if_neg (by simp [hex])]

theorem doTransfer_contents {env : CPath → CPath → Bool} {dryRun : Bool}
    {acc : ExecAcc} {src dest repSrc : CPath} :
    ContentsPreserved acc.fs (doTransfer env dryRun acc src dest repSrc).fs := by
  unfold doTransfer
  split
  · exact contentsPreserved_refl
  · split
    · split
      · split
        · exact contentsPreserved_refl
        · rename_i hex _
          cases hr : renameOp env acc.fs src dest with
          | none => exact contentsPreserved_refl
          | some fs1 => exact renameOp_contents hex hr
      · exact contentsPreserved_refl
    · exact contentsPreserved_refl

theorem contentsPreserved_of_files_eq {a b : FS} (h : b.files = a.files) :
    ContentsPreserved a b := by
  intro hnd
  constructor
  · unfold filePaths
    rw [h]
    exact hnd
  · rw [h]

theorem execRawFile_contents {env : CPath → CPath → Bool} {dryRun : Bool}
    {sc : List (String × CPath)} {k : String} {acc : ExecAcc} {f : CPath} :
    ContentsPreserved acc.fs (execRawFile env dryRun sc k acc f).fs := by
  unfold execRawFile
  cases dictGet sc (baseName f) with
  | none => exact doTransfer_contents
  | some sp => exact contentsPreserved_trans doTransfer_contents doTransfer_contents

theorem execRawFiles_contents {env : CPath → CPath → Bool} {dryRun : Bool}
    {sc : List (String × CPath)} {k : String} {acc : ExecAcc} {l : List CPath} :
    ContentsPreserved acc.fs (execRawFiles env dryRun sc k acc l).fs := by
  induction l generalizing acc with
  | nil => exact contentsPreserved_refl
  | cons f rest ih =>
    rw [execRawFiles]
    exact contentsPreserved_trans execRawFile_contents ih

theorem execMkdirRaw_contents {dryRun : Bool} {ex : List String} {k : String}
    {acc : ExecAcc} : ContentsPreserved acc.fs (execMkdirRaw dryRun ex k acc).fs := by
  unfold execMkdirRaw
  split
  · exact contentsPreserved_refl
  · split
    · exact contentsPreserved_refl
    · cases hr : makedirsOp acc.fs [k] with
      | none => exact contentsPreserved_refl
      | some fs1 => exact contentsPreserved_of_files_eq (makedirsOp_files hr)

theorem ifOk_contents {acc : ExecAcc} {f : ExecAcc → ExecAcc}
    (h : ∀ a : ExecAcc, ContentsPreserved a.fs (f a).fs) :
    ContentsPreserved acc.fs (ifOk acc f).fs := by
  unfold ifOk
  split
  · exact contentsPreserved_refl
  · exact h acc

theorem execRawGroup_contents {env : CPath → CPath → Bool} {dryRun : Bool}
    {ex : List String} {sc : List (String × CPath)} {acc : ExecAcc}
    {g : String × List CPath} :
    ContentsPreserved acc.fs (execRawGroup env dryRun ex sc acc g).fs := by
  unfold execRawGroup
  refine ifOk_contents (fun a => ?_)
  refine contentsPreserved_trans
    (@execMkdirRaw_contents dryRun ex g.1 a) ?_
  exact ifOk_contents (fun a1 => execRawFiles_contents)

theorem execRawGroups_contents {env : CPath → CPath → Bool} {dryRun : Bool}
    {ex : List String} {sc : List (String × CPath)} {acc : ExecAcc}
    {l : List (String × List CPath)} :
    ContentsPreserved acc.fs (execRawGroups env dryRun ex sc acc l).fs := by
  induction l generalizing acc with
  | nil => exact contentsPreserved_refl
  | cons g rest ih =>
    rw [execRawGroups]
    exact contentsPreserved_trans execRawGroup_contents ih

theorem execJpgFiles_contents {env : CPath → CPath → Bool} {dryRun : Bool}
    {k : String} {acc : ExecAcc} {l : List CPath} :
    ContentsPreserved acc.fs (execJpgFiles env dryRun k acc l).fs := by
  induction l generalizing acc with
  | nil => exact contentsPreserved_refl
  | cons f rest ih =>
    rw [execJpgFiles]
    exact contentsPreserved_trans doTransfer_contents ih

theorem execMkdirJpg_contents {dryRun : Bool} {k : String} {acc : ExecAcc} :
    ContentsPreserved acc.fs (execMkdirJpg dryRun k acc).fs := by
  unfold execMkdirJpg
  split
  · split
    · exact contentsPreserved_refl
    · cases hr : makedirsOp acc.fs [k, "jpg"] with
      | none => exact contentsPreserved_refl
      | some fs1 => exact contentsPreserved_of_files_eq (makedirsOp_files hr)
  · exact contentsPreserved_refl

theorem execJpgGroups_contents {env : CPath → CPath → Bool} {dryRun : Bool}
    {acc : ExecAcc} {l : List (String × List CPath)} :
    ContentsPreserved acc.fs (execJpgGroups env dryRun acc l).fs := by
  induction l generalizing acc with
  | nil => exact contentsPreserved_refl
  | cons g rest ih =>
    rw [execJpgGroups]
    refine contentsPreserved_trans ?_ ih
    unfold execJpgGroup
    refine ifOk_contents (fun a => ?_)
    refine contentsPreserved_trans
      (@execMkdirJpg_contents dryRun g.1 a) ?_
    exact ifOk_contents (fun a1 => execJpgFiles_contents)

/-- C1: conjunct one — any planned transfer (raw file, sidecar or preview
jpg all go through the same doTransfer shape) whose computed destination
already exists and differs from the source is skipped and reported: the
only effect is a logged conflict error; the filesystem (both the existing
destination file and the source file), the performed-action trace and the
abort state are untouched. Conjunct two — across a whole organizeInPlace
run, on any tree whose file paths are distinct, the multiset of file
contents is preserved: no existing file is ever overwritten (an overwrite
would destroy the destination's content, while a performed move only
re-homes content to a previously nonexistent path). -/
theorem C1_no_overwrite (env : CPath → CPath → Bool) (fs : FS) (cr : String)
    (dryRun : Bool) (acc : ExecAcc) (src dest repSrc : CPath)
    (h0 : acc.abort = none) (hne : dest ≠ src)
    (hex : existsPath acc.fs dest = true)
    (hnd : (filePaths fs).Nodup) :
    doTransfer env dryRun acc src dest repSrc =
      { acc with errs := acc.errs ++ [.conflict repSrc dest] } ∧
    (filePaths (organizeInPlace env fs cr dryRun).fs).Nodup ∧
    ((organizeInPlace env fs cr dryRun).fs.files.map Prod.snd).Perm
      (fs.files.map Prod.snd) := by
  refine ⟨doTransfer_conflict h0 hne hex, ?_⟩
  unfold organizeInPlace
  split
  · exact ⟨hnd, List.Perm.refl _⟩
  · have h : ContentsPreserved fs (execPlan env dryRun fs (scan fs cr)).fs := by
      unfold execPlan
      exact contentsPreserved_trans
        (@execRawGroups_contents env dryRun (scan fs cr).plan.existing
          (scan fs cr).plan.sidecars ⟨fs, (scan fs cr).errs, [], none⟩
          (scan fs cr).plan.raws)
        execJpgGroups_contents
    exact h hnd

/-- Witness for C1: a conflicting transfer (loose/IMG003.cr2 versus an
already-present 03-15-2023/IMG003.cr2) is skipped and reported, and the
corresponding full run keeps both files' contents intact. -/
theorem C1_no_overwrite_witness :
    doTransfer (fun _ _ => false) false
        ⟨⟨[["03-15-2023"], ["loose"]],
          [(["03-15-2023", "IMG003.cr2"], some "2023:03:15 01:02:03"),
           (["loose", "IMG003.cr2"], some "2023:03:15 02:03:04")]⟩, [], [], none⟩
        ["loose", "IMG003.cr2"] ["03-15-2023", "IMG003.cr2"]
        ["loose", "IMG003.cr2"] =
      ⟨⟨[["03-15-2023"], ["loose"]],
        [(["03-15-2023", "IMG003.cr2"], some "2023:03:15 01:02:03"),
         (["loose", "IMG003.cr2"], some "2023:03:15 02:03:04")]⟩,
       [.conflict ["loose", "IMG003.cr2"] ["03-15-2023", "IMG003.cr2"]],
       [], none⟩ ∧
    ((organizeInPlace (fun _ _ => false)
        ⟨[["03-15-2023"], ["loose"]],
         [(["03-15-2023", "IMG003.cr2"], some "2023:03:15 01:02:03"),
          (["loose", "IMG003.cr2"], some "2023:03:15 02:03:04")]⟩
        "roll" false).fs.files.map Prod.snd).Perm
      ([some "2023:03:15 01:02:03", some "2023:03:15 02:03:04"]) := by
  have h := C1_no_overwrite (fun _ _ => false)
    ⟨[["03-15-2023"], ["loose"]],
     [(["03-15-2023", "IMG003.cr2"], some "2023:03:15 01:02:03"),
      (["loose", "IMG003.cr2"], some "2023:03:15 02:03:04")]⟩
    "roll" false
    ⟨⟨[["03-15-2023"], ["loose"]],
      [(["03-15-2023", "IMG003.cr2"], some "2023:03:15 01:02:03"),
       (["loose", "IMG003.cr2"], some "2023:03:15 02:03:04")]⟩, [], [], none⟩
    ["loose", "IMG003.cr2"] ["03-15-2023", "IMG003.cr2"] ["loose", "IMG003.cr2"]
    rfl (by decide) (by decide) (by decide)
  exact ⟨h.1, h.2.2⟩

/-! ### The whitelist filter (C7, C9) -/

theorem dictAppend_mem {m : List (String × List CPath)} {k : String} {v : CPath}
    {kfl : String × List CPath} (h : kfl ∈ dictAppend m k v) {f : CPath}
    (hf : f ∈ kfl.2) : (∃ kfl0 ∈ m, f ∈ kfl0.2) ∨ f = v := by
  unfold dictAppend at h
  split at h
  · rcases List.mem_map.mp h with ⟨kv0, hkv0, he⟩
    by_cases hk : kv0.1 = k
    · rw [if_pos hk] at he
      rw [← he] at hf
      rcases List.mem_append.mp hf with hl | hr
      · exact Or.inl ⟨kv0, hkv0, hl⟩
      · exact Or.inr (List.mem_singleton.mp hr)
    · rw [if_neg hk] at he
      rw [← he] at hf
      exact Or.inl ⟨kv0, hkv0, hf⟩
  · rcases List.mem_append.mp h with hl | hr
    · exact Or.inl ⟨kfl, hl, hf⟩
    · rw [List.mem_singleton.mp hr] at hf
      exact Or.inr (List.mem_singleton.mp hf)

theorem dictSet_mem {m : List (String × CPath)} {k : String} {v : CPath}
    {kv : String × CPath} (h : kv ∈ dictSet m k v) :
    (∃ kv0 ∈ m, kv.2 = kv0.2) ∨ kv.2 = v := by
  unfold dictSet at h
  split at h
  · rcases List.mem_map.mp h with ⟨kv0, hkv0, he⟩
    by_cases hk : kv0.1 = k
    · rw [if_pos hk] at he
      rw [← he]
      exact Or.inr rfl
    · rw [if_neg hk] at he
      rw [← he]
      exact Or.inl ⟨kv0, hkv0, rfl⟩
  · rcases List.mem_append.mp h with hl | hr
    · exact Or.inl ⟨kv, hl, rfl⟩
    · rw [List.mem_singleton.mp hr]
      exact Or.inr rfl

/-- The scan-plan paths all lie in directories the walk admitted: in the
root itself, or in a directory whose rendered path contains an existing
date-key name. Stated as an invariant over the scan recursions. -/
theorem scanFile_whitelist {cr : String} {ex : List String} {d : CPath}
    {acc : ScanAcc} {nc : String × Option String}
    (hd : DirOK cr ex d)
    (hinv : PlanWhitelisted cr ex acc.plan) :
    PlanWhitelisted cr ex (scanFile d acc nc).plan := by
  have hnew : DirOK cr ex (d ++ [nc.1]).dropLast := by
    unfold DirOK
    rw [List.dropLast_concat]
    exact hd
  unfold scanFile
  split
  · exact hinv
  · split
    · refine ⟨hinv.1, hinv.2.1, ?_⟩
      intro kv hkv
      rcases dictSet_mem hkv with ⟨kv0, hkv0, he⟩ | he
      · rw [he]; exact hinv.2.2 kv0 hkv0
      · rw [he]; exact hnew
    · exact hinv
    · split
      · exact hinv
      · split
        · exact hinv
        · refine ⟨hinv.1, ?_, hinv.2.2⟩
          intro kfl hkfl f hf
          rcases dictAppend_mem hkfl hf with ⟨kfl0, hkfl0, hfm⟩ | he
          · exact hinv.2.1 kfl0 hkfl0 f hfm
          · rw [he]; exact hnew
    · split
      · exact hinv
      · split
        · exact hinv
        · refine ⟨?_, hinv.2.1, hinv.2.2⟩
          intro kfl hkfl f hf
          rcases dictAppend_mem hkfl hf with ⟨kfl0, hkfl0, hfm⟩ | he
          · exact hinv.1 kfl0 hkfl0 f hfm
          · rw [he]; exact hnew

theorem scanFiles_whitelist {cr : String} {ex : List String} {d : CPath}
    {acc : ScanAcc} {l : List (String × Option String)}
    (hd : DirOK cr ex d)
    (hinv : PlanWhitelisted cr ex acc.plan) :
    PlanWhitelisted cr ex (scanFiles d acc l).plan := by
  induction l generalizing acc with
  | nil => exact hinv
  | cons nc rest ih =>
    rw [scanFiles]
    exact ih (scanFile_whitelist hd hinv)

theorem scanDir_whitelist {fs : FS} {cr : String} {ex : List String}
    {acc : ScanAcc} {d : CPath}
    (hinv : PlanWhitelisted cr ex acc.plan) :
    PlanWhitelisted cr ex (scanDir fs cr ex acc d).plan := by
  unfold scanDir
  split
  · exact hinv
  · split
    · exact scanFiles_whitelist (Or.inl (by assumption)) hinv
    · split
      · exact scanFiles_whitelist (Or.inr (by assumption)) hinv
      · exact hinv

theorem scanDirs_whitelist {fs : FS} {cr : String} {ex : List String}
    {acc : ScanAcc} {l : List CPath}
    (hinv : PlanWhitelisted cr ex acc.plan) :
    PlanWhitelisted cr ex (scanDirs fs cr ex acc l).plan := by
  induction l generalizing acc with
  | nil => exact hinv
  | cons d rest ih =>
    rw [scanDirs]
    exact ih (scanDir_whitelist hinv)

/-- C7: every file path the scan records in the sort plan — in the raw
groups, the preview groups or the sidecar index — lies either directly in
the source root or in a directory whose rendered path contains the name
of one of the date-key directories found among the root's immediate
subdirectories in step 1; files of every other directory are skipped by
the walk loop and never grouped or placed. -/
theorem C7_whitelist_filter (fs : FS) (cr : String) :
    PlanWhitelisted cr (existingOf fs) (scan fs cr).plan := by
  unfold scan
  apply scanDirs_whitelist
  exact ⟨fun kfl h => absurd h (List.not_mem_nil kfl),
         fun kfl h => absurd h (List.not_mem_nil kfl),
         fun kv h => absurd h (List.not_mem_nil kv)⟩

/-- C9: when no immediate subdirectory of the source root parses as a
date key, the whitelist is empty, so the scan degenerates to a root-only
scan: every raw, preview and sidecar path recorded in the sort plan lies
directly at the root, and every file inside any subdirectory is skipped. -/
theorem C9_no_date_dirs_root_only (fs : FS) (cr : String)
    (h : ∀ d ∈ childrenOf fs [], parseDateKey (baseName d) = none) :
    existingOf fs = [] ∧
    (∀ kfl ∈ (scan fs cr).plan.raws, ∀ f ∈ kfl.2, f.dropLast = []) ∧
    (∀ kfl ∈ (scan fs cr).plan.jpgs, ∀ f ∈ kfl.2, f.dropLast = []) ∧
    (∀ kv ∈ (scan fs cr).plan.sidecars, kv.2.dropLast = []) := by
  have hex : existingOf fs = [] := by
    unfold existingOf
    refine List.filterMap_eq_nil_iff.mpr (fun d hd => ?_)
    rw [h d hd]
    rfl
  have hw := C7_whitelist_filter fs cr
  rw [hex] at hw
  have hroot : ∀ p : CPath, DirOK cr [] p → p = [] := by
    intro p hp
    rcases hp with hl | hr
    · exact hl
    · rw [List.any_nil] at hr
      cases hr
  exact ⟨hex,
    fun kfl hkfl f hf => hroot _ (hw.1 kfl hkfl f hf),
    fun kfl hkfl f hf => hroot _ (hw.2.1 kfl hkfl f hf),
    fun kv hkv => hroot _ (hw.2.2 kv hkv)⟩

/-- Witness for C9: a root with one non-date subdirectory containing a raw
file and one raw file at the root; only the root file is grouped. -/
theorem C9_no_date_dirs_root_only_witness :
    existingOf ⟨[["stuff"]],
      [(["r.cr2"], some "2023:03:15 01:02:03"),
       (["stuff", "s.cr2"], some "2023:03:15 01:02:03")]⟩ = [] ∧
    (∀ kfl ∈ (scan ⟨[["stuff"]],
      [(["r.cr2"], some "2023:03:15 01:02:03"),
       (["stuff", "s.cr2"], some "2023:03:15 01:02:03")]⟩ "roll").plan.raws,
      ∀ f ∈ kfl.2, f.dropLast = []) ∧
    (∀ kfl ∈ (scan ⟨[["stuff"]],
      [(["r.cr2"], some "2023:03:15 01:02:03"),
       (["stuff", "s.cr2"], some "2023:03:15 01:02:03")]⟩ "roll").plan.jpgs,
      ∀ f ∈ kfl.2, f.dropLast = []) ∧
    (∀ kv ∈ (scan ⟨[["stuff"]],
      [(["r.cr2"], some "2023:03:15 01:02:03"),
       (["stuff", "s.cr2"], some "2023:03:15 01:02:03")]⟩ "roll").plan.sidecars,
      kv.2.dropLast = []) :=
  C9_no_date_dirs_root_only
    ⟨[["stuff"]],
     [(["r.cr2"], some "2023:03:15 01:02:03"),
      (["stuff", "s.cr2"], some "2023:03:15 01:02:03")]⟩ "roll"
    (by decide)

/-! ### The sidecar index keeps one entry per stem, last write wins (C10) -/

theorem dictGet_map_ne {m : List (String × CPath)} {k s : String} {v : CPath}
    (hne : s ≠ k) :
    dictGet (m.map (fun kv => if kv.1 = k then (kv.1, v) else kv)) s =
      dictGet m s := by
  induction m with
  | nil => rfl
  | cons hd t ih =>
    unfold dictGet at *
    rw [List.map_cons]
    by_cases hh : hd.1 = s
    · have hkne : hd.1 ≠ k := fun hk => hne (hh.symm.trans hk)
      have hpred : ((if hd.1 = k then (hd.1, v) else hd)).1 = s := by
        rw [if_neg hkne]
        exact hh
      rw [List.find?_cons_of_pos _ (by simpa using hpred),
        List.find?_cons_of_pos _ (by simp [hh]), if_neg hkne]
    · have hpred : ¬ ((if hd.1 = k then (hd.1, v) else hd)).1 = s := by
        by_cases hk : hd.1 = k
        · rw [if_pos hk]
          exact hh
        · rw [if_neg hk]
          exact hh
      rw [List.find?_cons_of_neg _ (by simpa using hpred),
        List.find?_cons_of_neg _ (by simp [hh])]
      exact ih

theorem dictGet_map_eq {m : List (String × CPath)} {k : String} {v : CPath}
    (hany : m.any (fun kv => kv.1 = k) = true) :
    dictGet (m.map (fun kv => if kv.1 = k then (kv.1, v) else kv)) k = some v := by
  induction m with
  | nil => cases hany
  | cons hd t ih =>
    unfold dictGet
    rw [List.map_cons]
    by_cases hh : hd.1 = k
    · rw [List.find?_cons_of_pos _ (by simp [hh])]
      simp [hh]
    · rw [List.find?_cons_of_neg _ (by simp [hh])]
      have : t.any (fun kv => kv.1 = k) = true := by
        rcases List.any_eq_true.mp hany with ⟨kv, hkv, hp⟩
        rcases List.mem_cons.mp hkv with rfl | hm
        · exact absurd (by simpa using hp) hh
        · exact List.any_eq_true.mpr ⟨kv, hm, hp⟩
      exact ih this

theorem dictGet_eq_none {m : List (String × CPath)} {k : String}
    (hany : m.any (fun kv => kv.1 = k) = false) : dictGet m k = none := by
  unfold dictGet
  have hnone : m.find? (fun kv => kv.1 = k) = none := by
    rw [List.find?_eq_none]
    intro kv hkv
    simp only [decide_eq_true_eq]
    intro he
    have h2 : m.any (fun kv => kv.1 = k) = true :=
      List.any_eq_true.mpr ⟨kv, hkv, by simp [he]⟩
    rw [hany] at h2
    cases h2
  rw [hnone]
  rfl

theorem dictGet_append_one {m : List (String × CPath)} {k s : String} {v : CPath} :
    dictGet (m ++ [(k, v)]) s =
      match dictGet m s with
      | some w => some w
      | none => if k = s then some v else none := by
  induction m with
  | nil =>
    unfold dictGet
    by_cases hk : k = s
    · rw [List.nil_append, List.find?_cons_of_pos _ (by simp [hk])]
      simp [hk]
    · rw [List.nil_append, List.find?_cons_of_neg _ (by simp [hk])]
      simp [hk]
  | cons hd t ih =>
    unfold dictGet at *
    by_cases hh : hd.1 = s
    · rw [List.cons_append, List.find?_cons_of_pos _ (by simp [hh]),
        List.find?_cons_of_pos _ (by simp [hh])]
      rfl
    · rw [List.cons_append, List.find?_cons_of_neg _ (by simp [hh]),
        List.find?_cons_of_neg _ (by simp [hh])]
      exact ih

/-- Python dict assignment, observed through lookup: the assigned key now
maps to the new value and every other key is untouched. -/
theorem dictGet_dictSet {m : List (String × CPath)} {k s : String} {v : CPath} :
    dictGet (dictSet m k v) s = if k = s then some v else dictGet m s := by
  unfold dictSet
  split
  · rename_i hany
    by_cases hk : k = s
    · rw [if_pos hk, ← hk]
      exact dictGet_map_eq hany
    · rw [if_neg hk]
      exact dictGet_map_ne (fun he => hk he.symm)
  · rename_i hany
    rw [dictGet_append_one]
    by_cases hk : k = s
    · have hfalse : m.any (fun kv => kv.1 = k) = false := by
        cases h2 : m.any (fun kv => kv.1 = k) with
        | false => rfl
        | true => exact absurd h2 hany
      have hnone : dictGet m s = none := by
        rw [← hk]
        exact dictGet_eq_none hfalse
      rw [hnone]
    · cases hg : dictGet m s with
      | none => simp [hk]
      | some w => simp [hk, hg]

theorem scanFile_abort_back {d : CPath} {acc : ScanAcc} {nc : String × Option String}
    (h : (scanFile d acc nc).abort = none) : acc.abort = none := by
  by_cases hab : acc.abort.isSome
  · rw [scanFile_frozen hab] at h
    exact h
  · exact Option.not_isSome_iff_eq_none.mp hab

theorem scanFiles_abort_back {d : CPath} {acc : ScanAcc}
    {l : List (String × Option String)}
    (h : (scanFiles d acc l).abort = none) : acc.abort = none := by
  by_cases hab : acc.abort.isSome
  · rw [scanFiles_frozen hab] at h
    exact h
  · exact Option.not_isSome_iff_eq_none.mp hab

theorem scanDir_abort_back {fs : FS} {cr : String} {ex : List String} {acc : ScanAcc}
    {d : CPath} (h : (scanDir fs cr ex acc d).abort = none) : acc.abort = none := by
  by_cases hab : acc.abort.isSome
  · rw [scanDir_frozen hab] at h
    exact h
  · exact Option.not_isSome_iff_eq_none.mp hab

theorem scanDirs_abort_back {fs : FS} {cr : String} {ex : List String} {acc : ScanAcc}
    {l : List CPath} (h : (scanDirs fs cr ex acc l).abort = none) :
    acc.abort = none := by
  by_cases hab : acc.abort.isSome
  · rw [scanDirs_frozen hab] at h
    exact h
  · exact Option.not_isSome_iff_eq_none.mp hab

theorem oupdate_assoc {a b c : Option CPath} :
    oupdate (oupdate a b) c = oupdate a (oupdate b c) := by
  cases c <;> cases b <;> rfl

theorem lastVal_append {a b : List (String × CPath)} {s : String} :
    lastVal (a ++ b) s = oupdate (lastVal a s) (lastVal b s) := by
  induction a with
  | nil =>
    rw [List.nil_append]
    cases lastVal b s <;> rfl
  | cons kv a1 ih =>
    rw [List.cons_append, lastVal, ih, lastVal]
    cases lastVal b s <;> cases lastVal a1 s <;> simp [oupdate]

theorem sidecarPairs_cons {d : CPath} {nc : String × Option String}
    {rest : List (String × Option String)} :
    sidecarPairs d (nc :: rest) = sidecarPairs d [nc] ++ sidecarPairs d rest := by
  unfold sidecarPairs
  rw [List.filterMap_cons, List.filterMap_cons]
  cases hr : (if roleOf nc.1 = .sidecarR then
      some ((splitExt nc.1).1, d ++ [nc.1]) else none) <;> simp

theorem scanFile_sidecar_lookup {d : CPath} {acc : ScanAcc}
    {nc : String × Option String} {s : String}
    (h : (scanFile d acc nc).abort = none) :
    dictGet (scanFile d acc nc).plan.sidecars s =
      oupdate (dictGet acc.plan.sidecars s) (lastVal (sidecarPairs d [nc]) s) := by
  have hacc : acc.abort = none := scanFile_abort_back h
  cases hrole : roleOf nc.1 with
  | sidecarR =>
    by_cases hs : (splitExt nc.1).1 = s
    · simp [scanFile, hacc, hrole, sidecarPairs, lastVal, oupdate, dictGet_dictSet, hs]
    · simp [scanFile, hacc, hrole, sidecarPairs, lastVal, oupdate, dictGet_dictSet, hs]
  | unrecR => simp [scanFile, hacc, hrole, sidecarPairs, lastVal, oupdate]
  | jpgR =>
    cases hc : nc.2 with
    | none => simp [scanFile, hacc, hrole, hc] at h
    | some str =>
      cases hp : parseExifDate str with
      | none => simp [scanFile, hacc, hrole, hc, hp] at h
      | some dt =>
        simp [scanFile, hacc, hrole, hc, hp, sidecarPairs, lastVal, oupdate]
  | rawR =>
    cases hc : nc.2 with
    | none => simp [scanFile, hacc, hrole, hc] at h
    | some str =>
      cases hp : parseExifDate str with
      | none => simp [scanFile, hacc, hrole, hc, hp] at h
      | some dt =>
        simp [scanFile, hacc, hrole, hc, hp, sidecarPairs, lastVal, oupdate]

theorem scanFiles_sidecar_lookup {d : CPath} {acc : ScanAcc}
    {l : List (String × Option String)} {s : String}
    (h : (scanFiles d acc l).abort = none) :
    dictGet (scanFiles d acc l).plan.sidecars s =
      oupdate (dictGet acc.plan.sidecars s) (lastVal (sidecarPairs d l) s) := by
  induction l generalizing acc with
  | nil => simp [scanFiles, sidecarPairs, lastVal, oupdate]
  | cons nc rest ih =>
    rw [scanFiles] at h ⊢
    have h2 : (scanFile d acc nc).abort = none := scanFiles_abort_back h
    rw [show lastVal (sidecarPairs d (nc :: rest)) s =
        oupdate (lastVal (sidecarPairs d [nc]) s) (lastVal (sidecarPairs d rest) s) by
      rw [sidecarPairs_cons, lastVal_append]]
    rw [ih h, scanFile_sidecar_lookup h2, oupdate_assoc]

theorem scanDir_sidecar_lookup {fs : FS} {cr : String} {ex : List String}
    {acc : ScanAcc} {d : CPath} {s : String}
    (h : (scanDir fs cr ex acc d).abort = none) :
    dictGet (scanDir fs cr ex acc d).plan.sidecars s =
      oupdate (dictGet acc.plan.sidecars s)
        (lastVal (if d = [] ∨ ex.any (fun k => strContains (renderPath cr d) k) then
          sidecarPairs d (filesIn fs d) else []) s) := by
  have hacc : acc.abort = none := scanDir_abort_back h
  unfold scanDir at h ⊢
  rw [if_neg (by simp [hacc])] at h ⊢
  by_cases hroot : d = []
  · rw [if_pos hroot] at h ⊢
    rw [if_pos (Or.inl hroot)]
    exact scanFiles_sidecar_lookup h
  · rw [if_neg hroot] at h ⊢
    by_cases hg : ex.any (fun k => strContains (renderPath cr d) k) = true
    · rw [if_pos hg] at h ⊢
      rw [if_pos (Or.inr hg)]
      exact scanFiles_sidecar_lookup h
    · rw [if_neg hg]
      rw [if_neg (by
        intro hor
        rcases hor with h1 | h2
        · exact hroot h1
        · exact hg h2)]
      simp [lastVal, oupdate]

theorem scanDirs_sidecar_lookup {fs : FS} {cr : String} {ex : List String}
    {acc : ScanAcc} {l : List CPath} {s : String}
    (h : (scanDirs fs cr ex acc l).abort = none) :
    dictGet (scanDirs fs cr ex acc l).plan.sidecars s =
      oupdate (dictGet acc.plan.sidecars s) (lastVal (sidecarVisits fs cr ex l) s) := by
  induction l generalizing acc with
  | nil => simp [scanDirs, sidecarVisits, lastVal, oupdate]
  | cons d rest ih =>
    rw [scanDirs] at h ⊢
    have h2 : (scanDir fs cr ex acc d).abort = none := scanDirs_abort_back h
    rw [ih h, scanDir_sidecar_lookup h2, sidecarVisits, lastVal_append,
      oupdate_assoc]

theorem dictSet_keys_nodup {m : List (String × CPath)} {k : String} {v : CPath}
    (h : (m.map Prod.fst).Nodup) : ((dictSet m k v).map Prod.fst).Nodup := by
  unfold dictSet
  split
  · have hkeys : (m.map (fun kv => if kv.1 = k then (kv.1, v) else kv)).map Prod.fst =
        m.map Prod.fst := by
      rw [List.map_map]
      refine List.map_congr_left (fun kv _ => ?_)
      by_cases hk : kv.1 = k <;> simp [hk]
    rw [hkeys]
    exact h
  · rename_i hany
    rw [List.map_append]
    apply List.Nodup.append h (List.nodup_singleton _)
    intro a ha hb
    have hak : a = k := by simpa using hb
    rcases List.mem_map.mp ha with ⟨kv, hkv, he⟩
    have h2 : m.any (fun kv => kv.1 = k) = true :=
      List.any_eq_true.mpr ⟨kv, hkv, by simp [he, hak]⟩
    rw [h2] at hany
    exact hany rfl

theorem scanFile_sidecar_keys {d : CPath} {acc : ScanAcc}
    {nc : String × Option String}
    (h : (acc.plan.sidecars.map Prod.fst).Nodup) :
    ((scanFile d acc nc).plan.sidecars.map Prod.fst).Nodup := by
  unfold scanFile
  split
  · exact h
  · split
    · exact dictSet_keys_nodup h
    · exact h
    · split
      · exact h
      · split
        · exact h
        · exact h
    · split
      · exact h
      · split
        · exact h
        · exact h

theorem scanFiles_sidecar_keys {d : CPath} {acc : ScanAcc}
    {l : List (String × Option String)}
    (h : (acc.plan.sidecars.map Prod.fst).Nodup) :
    ((scanFiles d acc l).plan.sidecars.map Prod.fst).Nodup := by
  induction l generalizing acc with
  | nil => exact h
  | cons nc rest ih =>
    rw [scanFiles]
    exact ih (scanFile_sidecar_keys h)

theorem scanDirs_sidecar_keys {fs : FS} {cr : String} {ex : List String}
    {acc : ScanAcc} {l : List CPath}
    (h : (acc.plan.sidecars.map Prod.fst).Nodup) :
    ((scanDirs fs cr ex acc l).plan.sidecars.map Prod.fst).Nodup := by
  induction l generalizing acc with
  | nil => exact h
  | cons d rest ih =>
    rw [scanDirs]
    refine ih ?_
    unfold scanDir
    split
    · exact h
    · split
      · exact scanFiles_sidecar_keys h
      · split
        · exact scanFiles_sidecar_keys h
        · exact h

/-! Trace containment for the raw pass: every performed action of the raw
pass is a mkdir of a group key, a raw transfer of a group file, or a
sidecar transfer whose source is the index value the executor looked up. -/

theorem doTransfer_trace_sub {env : CPath → CPath → Bool} {dryRun : Bool}
    {acc : ExecAcc} {src dest repSrc : CPath} {a : Act}
    (ha : a ∈ (doTransfer env dryRun acc src dest repSrc).trace) :
    a ∈ acc.trace ∨ a = .renameA src dest := by
  unfold doTransfer at ha
  split at ha
  · exact Or.inl ha
  · split at ha
    · split at ha
      · split at ha
        · exact Or.inl ha
        · split at ha
          · exact Or.inl ha
          · rcases List.mem_append.mp ha with hl | hr
            · exact Or.inl hl
            · exact Or.inr (List.mem_singleton.mp hr)
      · exact Or.inl ha
    · exact Or.inl ha

theorem execRawFile_trace_sub {env : CPath → CPath → Bool} {dryRun : Bool}
    {sc : List (String × CPath)} {k : String} {acc : ExecAcc} {f : CPath} {a : Act}
    (ha : a ∈ (execRawFile env dryRun sc k acc f).trace) :
    a ∈ acc.trace ∨ a = .renameA f [k, baseName f] ∨
      ∃ sp, dictGet sc (baseName f) = some sp ∧ a = .renameA sp [k, baseName sp] := by
  unfold execRawFile at ha
  cases hl : dictGet sc (baseName f) with
  | none =>
    rw [hl] at ha
    rcases doTransfer_trace_sub ha with h1 | h2
    · exact Or.inl h1
    · exact Or.inr (Or.inl h2)
  | some sp =>
    rw [hl] at ha
    rcases doTransfer_trace_sub ha with h1 | h2
    · rcases doTransfer_trace_sub h1 with h3 | h4
      · exact Or.inl h3
      · exact Or.inr (Or.inl h4)
    · exact Or.inr (Or.inr ⟨sp, rfl, h2⟩)

theorem execRawFiles_trace_sub {env : CPath → CPath → Bool} {dryRun : Bool}
    {sc : List (String × CPath)} {k : String} {acc : ExecAcc} {l : List CPath} {a : Act}
    (ha : a ∈ (execRawFiles env dryRun sc k acc l).trace) :
    a ∈ acc.trace ∨ ∃ f ∈ l, a = .renameA f [k, baseName f] ∨
      ∃ sp, dictGet sc (baseName f) = some sp ∧ a = .renameA sp [k, baseName sp] := by
  induction l generalizing acc with
  | nil => exact Or.inl ha
  | cons f rest ih =>
    rw [execRawFiles] at ha
    rcases ih ha with h1 | ⟨g, hg, h2⟩
    · rcases execRawFile_trace_sub h1 with h3 | h4
      · exact Or.inl h3
      · exact Or.inr ⟨f, List.mem_cons_self f rest, h4⟩
    · exact Or.inr ⟨g, List.mem_cons_of_mem f hg, h2⟩

theorem execMkdirRaw_trace_sub {dryRun : Bool} {ex : List String} {k : String}
    {acc : ExecAcc} {a : Act}
    (ha : a ∈ (execMkdirRaw dryRun ex k acc).trace) :
    a ∈ acc.trace ∨ a = .mkdirA [k] := by
  unfold execMkdirRaw at ha
  split at ha
  · exact Or.inl ha
  · split at ha
    · exact Or.inl ha
    · split at ha
      · exact Or.inl ha
      · rcases List.mem_append.mp ha with hl | hr
        · exact Or.inl hl
        · exact Or.inr (List.mem_singleton.mp hr)

theorem execRawGroup_trace_sub {env : CPath → CPath → Bool} {dryRun : Bool}
    {ex : List String} {sc : List (String × CPath)} {acc : ExecAcc}
    {g : String × List CPath} {a : Act}
    (ha : a ∈ (execRawGroup env dryRun ex sc acc g).trace) :
    a ∈ acc.trace ∨ a = .mkdirA [g.1] ∨ ∃ f ∈ g.2,
      a = .renameA f [g.1, baseName f] ∨
      ∃ sp, dictGet sc (baseName f) = some sp ∧ a = .renameA sp [g.1, baseName sp] := by
  unfold execRawGroup at ha
  by_cases hab : acc.abort.isSome
  · rw [ifOk_frozen hab] at ha
    exact Or.inl ha
  · rw [ifOk_ok (Option.not_isSome_iff_eq_none.mp hab)] at ha
    by_cases hab2 : (execMkdirRaw dryRun ex g.1 acc).abort.isSome
    · rw [ifOk_frozen hab2] at ha
      rcases execMkdirRaw_trace_sub ha with h1 | h2
      · exact Or.inl h1
      · exact Or.inr (Or.inl h2)
    · rw [ifOk_ok (Option.not_isSome_iff_eq_none.mp hab2)] at ha
      rcases execRawFiles_trace_sub ha with h1 | h2
      · rcases execMkdirRaw_trace_sub h1 with h3 | h4
        · exact Or.inl h3
        · exact Or.inr (Or.inl h4)
      · exact Or.inr (Or.inr h2)

theorem execRawGroups_trace_sub {env : CPath → CPath → Bool} {dryRun : Bool}
    {ex : List String} {sc : List (String × CPath)} {acc : ExecAcc}
    {gs : List (String × List CPath)} {a : Act}
    (ha : a ∈ (execRawGroups env dryRun ex sc acc gs).trace) :
    a ∈ acc.trace ∨ ∃ g ∈ gs, a = .mkdirA [g.1] ∨ ∃ f ∈ g.2,
      a = .renameA f [g.1, baseName f] ∨
      ∃ sp, dictGet sc (baseName f) = some sp ∧ a = .renameA sp [g.1, baseName sp] := by
  induction gs generalizing acc with
  | nil => exact Or.inl ha
  | cons g rest ih =>
    rw [execRawGroups] at ha
    rcases ih ha with h1 | ⟨g2, hg2, h2⟩
    · rcases execRawGroup_trace_sub h1 with h3 | h4
      · exact Or.inl h3
      · exact Or.inr ⟨g, List.mem_cons_self g rest, h4⟩
    · exact Or.inr ⟨g2, List.mem_cons_of_mem g hg2, h2⟩

theorem scan_eq (fs : FS) (cr : String) :
    scan fs cr = scanDirs fs cr (existingOf fs)
      ⟨⟨existingOf fs, [], [], []⟩, [], none⟩ (walk fs) := rfl

/-- C10: the sidecar index of a completed scan (a) has pairwise-distinct
keys, so each stripped base filename maps to at most one sidecar path;
(b) resolves every key to the value of the last sidecar with that stem
encountered in walk order — a later sidecar overwrites an earlier one
with the same stem (line 73's plain dict assignment); and (c) every
action the raw pass performs is a group mkdir, a raw transfer of a group
file, or a sidecar transfer whose source is exactly the index entry the
executor looked up — so only the surviving entry can ever be associated
with a raw file. -/
theorem C10_sidecar_index_last_wins (fs : FS) (cr : String)
    (h : (scan fs cr).abort = none) :
    ((scan fs cr).plan.sidecars.map Prod.fst).Nodup ∧
    (∀ s, dictGet (scan fs cr).plan.sidecars s =
      lastVal (sidecarVisits fs cr (existingOf fs) (walk fs)) s) ∧
    (∀ (env : CPath → CPath → Bool) (dryRun : Bool) (acc : ExecAcc)
        (gs : List (String × List CPath)) (a : Act),
      a ∈ (execRawGroups env dryRun (scan fs cr).plan.existing
            (scan fs cr).plan.sidecars acc gs).trace →
      a ∈ acc.trace ∨ ∃ g ∈ gs, a = .mkdirA [g.1] ∨ ∃ f ∈ g.2,
        a = .renameA f [g.1, baseName f] ∨
        ∃ sp, dictGet (scan fs cr).plan.sidecars (baseName f) = some sp ∧
          a = .renameA sp [g.1, baseName sp]) := by
  refine ⟨?_, ?_, ?_⟩
  · rw [scan_eq]
    exact scanDirs_sidecar_keys List.nodup_nil
  · intro s
    rw [scan_eq] at h ⊢
    rw [scanDirs_sidecar_lookup h]
    cases lastVal (sidecarVisits fs cr (existingOf fs) (walk fs)) s <;> rfl
  · intro env dryRun acc gs a ha
    exact execRawGroups_trace_sub ha

/-- Witness for C10: two sidecars with the same stem IMG.cr2, one at the
root and one in the date directory visited later; the index maps the stem
to the later one. -/
theorem C10_sidecar_index_last_wins_witness :
    (((scan ⟨[["03-15-2023"]],
        [(["IMG.cr2.xmp"], none),
         (["03-15-2023", "IMG.cr2.xmp"], none)]⟩ "roll").plan.sidecars.map
        Prod.fst).Nodup ∧
     (∀ s, dictGet (scan ⟨[["03-15-2023"]],
        [(["IMG.cr2.xmp"], none),
         (["03-15-2023", "IMG.cr2.xmp"], none)]⟩ "roll").plan.sidecars s =
       lastVal (sidecarVisits ⟨[["03-15-2023"]],
        [(["IMG.cr2.xmp"], none),
         (["03-15-2023", "IMG.cr2.xmp"], none)]⟩ "roll"
         (existingOf ⟨[["03-15-2023"]],
          [(["IMG.cr2.xmp"], none),
           (["03-15-2023", "IMG.cr2.xmp"], none)]⟩)
         (walk ⟨[["03-15-2023"]],
          [(["IMG.cr2.xmp"], none),
           (["03-15-2023", "IMG.cr2.xmp"], none)]⟩)) s) ∧
     (∀ (env : CPath → CPath → Bool) (dryRun : Bool) (acc : ExecAcc)
         (gs : List (String × List CPath)) (a : Act),
       a ∈ (execRawGroups env dryRun (scan ⟨[["03-15-2023"]],
            [(["IMG.cr2.xmp"], none),
             (["03-15-2023", "IMG.cr2.xmp"], none)]⟩ "roll").plan.existing
             (scan ⟨[["03-15-2023"]],
            [(["IMG.cr2.xmp"], none),
             (["03-15-2023", "IMG.cr2.xmp"], none)]⟩ "roll").plan.sidecars acc
             gs).trace →
       a ∈ acc.trace ∨ ∃ g ∈ gs, a = .mkdirA [g.1] ∨ ∃ f ∈ g.2,
         a = .renameA f [g.1, baseName f] ∨
         ∃ sp, dictGet (scan ⟨[["03-15-2023"]],
            [(["IMG.cr2.xmp"], none),
             (["03-15-2023", "IMG.cr2.xmp"], none)]⟩ "roll").plan.sidecars
             (baseName f) = some sp ∧
           a = .renameA sp [g.1, baseName sp])) ∧
    dictGet (scan ⟨[["03-15-2023"]],
      [(["IMG.cr2.xmp"], none),
       (["03-15-2023", "IMG.cr2.xmp"], none)]⟩ "roll").plan.sidecars "IMG.cr2" =
      some ["03-15-2023", "IMG.cr2.xmp"] :=
  ⟨C10_sidecar_index_last_wins
    ⟨[["03-15-2023"]],
     [(["IMG.cr2.xmp"], none), (["03-15-2023", "IMG.cr2.xmp"], none)]⟩ "roll"
    (by decide), by decide⟩

/-! ### Sidecar association follows the darktable naming convention (C3) -/

/-- C3 counterexample: the claim says a sidecar named X.xmp is transferred
alongside the raw file X.rawExt. In the source, the index is keyed by the
sidecar's stem with the extension stripped (line 73: IMG001.xmp is stored
under IMG001), but the association lookup at line 106 uses the raw file's
full basename including its extension (IMG001.cr2) — so X.xmp can never
match X.cr2. Concretely: IMG001.cr2 (dated 03-15-2023, directory already
present) and IMG001.xmp at the root; the run moves only the raw file and
leaves IMG001.xmp untouched at the root, with no error and no sidecar
transfer in the trace. -/
theorem C3_counterexample :
    organizeInPlace (fun _ _ => false)
        ⟨[["03-15-2023"]],
         [(["IMG001.cr2"], some "2023:03:15 01:02:03"), (["IMG001.xmp"], none)]⟩
        "roll" false =
      ⟨⟨[["03-15-2023"]],
        [(["IMG001.xmp"], none),
         (["03-15-2023", "IMG001.cr2"], some "2023:03:15 01:02:03")]⟩,
       [], [.renameA ["IMG001.cr2"] ["03-15-2023", "IMG001.cr2"]], none⟩ := by
  decide

/-- C3 as amended: the association follows darktable's sidecar naming —
the sidecar whose stem equals the raw file's full basename, i.e.
X.rawExt.xmp for the raw file X.rawExt. For a raw file of group k that is
already at its destination (so its own transfer is the identical-path
no-op) and whose basename resolves in the sidecar index: the sidecar is
transferred into the same date directory k under its own basename, with
the identical-path no-op exception and the destination-exists conflict
skip (reported via line 114, which names the raw file as the source)
applying to the sidecar transfer exactly as they do to raw transfers. -/
theorem C3_sidecar_darktable_convention (env : CPath → CPath → Bool)
    (sc : List (String × CPath)) (k : String) (acc : ExecAcc) (f sp : CPath)
    (hplaced : f = [k, baseName f])
    (h0 : acc.abort = none)
    (hlook : dictGet sc (baseName f) = some sp) :
    (sp = [k, baseName sp] → execRawFile env false sc k acc f = acc) ∧
    (sp ≠ [k, baseName sp] → ¬ existsPath acc.fs [k, baseName sp] = true →
      ∀ fs1, renameOp env acc.fs sp [k, baseName sp] = some fs1 →
        execRawFile env false sc k acc f =
          { acc with fs := fs1,
                     trace := acc.trace ++ [.renameA sp [k, baseName sp]] }) ∧
    (sp ≠ [k, baseName sp] → existsPath acc.fs [k, baseName sp] = true →
      execRawFile env false sc k acc f =
        { acc with errs := acc.errs ++ [.conflict f [k, baseName sp]] }) := by
  have hraw : doTransfer env false acc f [k, baseName f] f = acc := by
    unfold doTransfer
    rw [if_neg (by simp [h0]), if_neg (fun hne => hne hplaced.symm)]
  refine ⟨?_, ?_, ?_⟩
  · intro hsp
    unfold execRawFile
    rw [hlook]
    show doTransfer env false (doTransfer env false acc f [k, baseName f] f)
      sp [k, baseName sp] f = acc
    rw [hraw]
    unfold doTransfer
    rw [if_neg (by simp [h0]), if_neg (fun hne => hne hsp.symm)]
  · intro hne hex fs1 hren
    unfold execRawFile
    rw [hlook]
    show doTransfer env false (doTransfer env false acc f [k, baseName f] f)
      sp [k, baseName sp] f = _
    rw [hraw]
    unfold doTransfer
    rw [if_neg (by simp [h0]), if_pos (fun he => hne he.symm), if_pos hex,
      if_neg (by simp), hren]
  · intro hne hex
    unfold execRawFile
    rw [hlook]
    show doTransfer env false (doTransfer env false acc f [k, baseName f] f)
      sp [k, baseName sp] f = _
    rw [hraw]
    exact doTransfer_conflict h0 (fun he => hne he.symm) hex

/-- Witness for C3 as amended: IMG001.cr2 already placed in 03-15-2023
with its darktable sidecar IMG001.cr2.xmp still at the root; the sidecar
is transferred into the same date directory. -/
theorem C3_sidecar_darktable_convention_witness :
    execRawFile (fun _ _ => false) false [("IMG001.cr2", ["IMG001.cr2.xmp"])]
        "03-15-2023"
        ⟨⟨[["03-15-2023"]],
          [(["03-15-2023", "IMG001.cr2"], some "2023:03:15 01:02:03"),
           (["IMG001.cr2.xmp"], none)]⟩, [], [], none⟩
        ["03-15-2023", "IMG001.cr2"] =
      ⟨⟨[["03-15-2023"]],
        [(["03-15-2023", "IMG001.cr2"], some "2023:03:15 01:02:03"),
         (["03-15-2023", "IMG001.cr2.xmp"], none)]⟩, [],
       [.renameA ["IMG001.cr2.xmp"] ["03-15-2023", "IMG001.cr2.xmp"]], none⟩ :=
  (C3_sidecar_darktable_convention (fun _ _ => false)
    [("IMG001.cr2", ["IMG001.cr2.xmp"])] "03-15-2023"
    ⟨⟨[["03-15-2023"]],
      [(["03-15-2023", "IMG001.cr2"], some "2023:03:15 01:02:03"),
       (["IMG001.cr2.xmp"], none)]⟩, [], [], none⟩
    ["03-15-2023", "IMG001.cr2"] ["IMG001.cr2.xmp"]
    (by decide) rfl (by decide)).2.1 (by decide) (by decide)
    ⟨[["03-15-2023"]],
     [(["03-15-2023", "IMG001.cr2"], some "2023:03:15 01:02:03"),
      (["03-15-2023", "IMG001.cr2.xmp"], none)]⟩ (by decide)

/-! ### Path and walk toolbox (for C4) -/

theorem baseName_concat {d : CPath} {n : String} : baseName (d ++ [n]) = n := by
  unfold baseName
  rw [List.getLast?_concat]
  rfl

theorem dropLast_append_baseName {p : CPath} (h : p ≠ []) :
    p.dropLast ++ [baseName p] = p := by
  unfold baseName
  rw [List.getLast?_eq_getLast p h]
  exact List.dropLast_append_getLast h

theorem foldl_max_ge_init {l : List CPath} {a : Nat} :
    a ≤ l.foldl (fun acc d => max acc d.length) a := by
  induction l generalizing a with
  | nil => exact Nat.le_refl a
  | cons hd t ih => exact Nat.le_trans (Nat.le_max_left a hd.length) ih

theorem foldl_max_ge_mem {l : List CPath} {a : Nat} {d : CPath} (h : d ∈ l) :
    d.length ≤ l.foldl (fun acc q => max acc q.length) a := by
  induction l generalizing a with
  | nil => cases h
  | cons hd t ih =>
    rcases List.mem_cons.mp h with rfl | hm
    · exact Nat.le_trans (Nat.le_max_right a d.length) foldl_max_ge_init
    · exact ih hm

theorem maxDirDepth_ge {fs : FS} {d : CPath} (h : d ∈ fs.dirs) :
    d.length ≤ maxDirDepth fs := foldl_max_ge_mem h

theorem walkFrom_sound {fs : FS} {fuel : Nat} {p d : CPath}
    (h : d ∈ walkFrom fs fuel p) : d = p ∨ d ∈ fs.dirs := by
  induction fuel generalizing p with
  | zero => exact Or.inl (List.mem_singleton.mp h)
  | succ fuel ih =>
    rw [walkFrom] at h
    rcases List.mem_cons.mp h with rfl | hm
    · exact Or.inl rfl
    · rcases List.mem_flatten.mp hm with ⟨sub, hsub, hd⟩
      rcases List.mem_map.mp hsub with ⟨c, hc, rfl⟩
      rcases ih hd with rfl | hdd
      · exact Or.inr (List.mem_filter.mp hc).1
      · exact Or.inr hdd

theorem walk_sound {fs : FS} {d : CPath} (h : d ∈ walk fs) :
    d = [] ∨ d ∈ fs.dirs := walkFrom_sound h

theorem walk_root_mem {fs : FS} : ([] : CPath) ∈ walk fs := by
  unfold walk
  cases maxDirDepth fs with
  | zero => exact List.mem_singleton.mpr rfl
  | succ fuel => exact List.mem_cons_self _ _

theorem ancClosed_take_aux {fs : FS} (hac : AncClosed fs) {d : CPath}
    (hd : d ∈ fs.dirs) :
    ∀ j i, i + 1 + j = d.length → d.take (i + 1) ∈ fs.dirs := by
  intro j
  induction j with
  | zero =>
    intro i hi
    have he : i + 1 = d.length := by omega
    rw [he, List.take_length]
    exact hd
  | succ m ih =>
    intro i hi
    have h2 : d.take (i + 1 + 1) ∈ fs.dirs := ih (i + 1) (by omega)
    have hget : d[i + 1]? = some (d.get ⟨i + 1, by omega⟩) :=
      List.getElem?_eq_getElem (by omega)
    have htake : (d.take (i + 1 + 1)).dropLast = d.take (i + 1) := by
      rw [List.take_succ, hget]
      exact List.dropLast_concat
    have h3 := (hac _ h2).2
    rcases h3 with h4 | h4
    · rw [htake] at h4
      have hne : d.take (i + 1) ≠ [] := by
        intro he
        have hlen : (d.take (i + 1)).length = i + 1 := by
          rw [List.length_take]
          omega
        rw [he] at hlen
        simp at hlen
      cases hne h4
    · rw [htake] at h4
      exact h4

theorem ancClosed_take {fs : FS} (hac : AncClosed fs) {d : CPath}
    (hd : d ∈ fs.dirs) :
    ∀ i, i + 1 ≤ d.length → d.take (i + 1) ∈ fs.dirs := by
  intro i hi
  exact ancClosed_take_aux hac hd (d.length - (i + 1)) i (by omega)

theorem walkFrom_complete {fs : FS} (hac : AncClosed fs) :
    ∀ fuel (p d : CPath), d ∈ fs.dirs →
      (d = p ∨ ∃ t, t ≠ [] ∧ d = p ++ t ∧ t.length ≤ fuel) →
      d ∈ walkFrom fs fuel p := by
  intro fuel
  induction fuel with
  | zero =>
    intro p d _ hcase
    rcases hcase with rfl | ⟨t, htne, _, hlen⟩
    · exact List.mem_singleton.mpr rfl
    · cases htne (List.eq_nil_of_length_eq_zero (by omega))
  | succ fuel ih =>
    intro p d hd hcase
    rcases hcase with rfl | ⟨t, htne, hdt, hlen⟩
    · rw [walkFrom]
      exact List.mem_cons_self _ _
    · rw [walkFrom]
      refine List.mem_cons_of_mem _ ?_
      obtain ⟨x, t1, rfl⟩ : ∃ x t1, t = x :: t1 := by
        cases t with
        | nil => cases htne rfl
        | cons x t1 => exact ⟨x, t1, rfl⟩
      have hdl : d.length = p.length + 1 + t1.length := by
        rw [hdt]
        simp
        omega
      have htk : d.take (p.length + 1) = p ++ [x] := by
        rw [hdt, List.take_append_eq_append_take,
          List.take_of_length_le (by omega)]
        have hone : (p.length + 1 - p.length) = 1 := by omega
        rw [hone]
        rfl
      have hc : p ++ [x] ∈ fs.dirs := by
        rw [← htk]
        exact ancClosed_take hac hd p.length (by omega)
      refine List.mem_flatten.mpr
        ⟨walkFrom fs fuel (p ++ [x]), List.mem_map_of_mem _ ?_, ?_⟩
      · refine List.mem_filter.mpr ⟨hc, ?_⟩
        simp
      · cases t1 with
        | nil =>
          refine ih (p ++ [x]) d hd (Or.inl ?_)
          rw [hdt]
        | cons y t2 =>
          refine ih (p ++ [x]) d hd (Or.inr ⟨y :: t2, List.cons_ne_nil y t2, ?_, ?_⟩)
          · rw [hdt]
            simp
          · simp at hlen
            simp
            omega

theorem walk_complete {fs : FS} (hac : AncClosed fs) {d : CPath}
    (hd : d ∈ fs.dirs) : d ∈ walk fs := by
  unfold walk
  refine walkFrom_complete hac _ _ _ hd (Or.inr ⟨d, (hac d hd).1, rfl, maxDirDepth_ge hd⟩)

theorem filesIn_mem {fs : FS} {d : CPath} {n : String} {c : Option String}
    (h : (n, c) ∈ filesIn fs d) : (d ++ [n], c) ∈ fs.files := by
  unfold filesIn at h
  rcases List.mem_filterMap.mp h with ⟨pc, hpc, he⟩
  split at he
  · rename_i hcond
    injection he with h1
    have hb : baseName pc.1 = n := congrArg Prod.fst h1
    have hc2 : pc.2 = c := congrArg Prod.snd h1
    have hp : pc.1 = d ++ [n] := by
      rw [← hb, ← hcond.2]
      exact (dropLast_append_baseName hcond.1).symm
    rw [← hp, ← hc2]
    exact hpc
  · cases he

theorem mem_filesIn {fs : FS} {d : CPath} {n : String} {c : Option String}
    (h : (d ++ [n], c) ∈ fs.files) : (n, c) ∈ filesIn fs d := by
  unfold filesIn
  refine List.mem_filterMap.mpr ⟨(d ++ [n], c), h, ?_⟩
  rw [if_pos ⟨by simp, List.dropLast_concat⟩, baseName_concat]

/-! ### strftime output parses back under strptime (for C4) -/

theorem digitChar_toNat {d : Nat} (h : d < 10) : (digitChar d).toNat = 48 + d := by
  unfold digitChar
  interval_cases d <;> decide

theorem digitChar_isDigit {d : Nat} (h : d < 10) : (digitChar d).isDigit = true := by
  unfold digitChar
  interval_cases d <;> decide

theorem natDigitsAux_spec : ∀ fuel n, n < fuel →
    natDigitsAux fuel n ≠ [] ∧ (natDigitsAux fuel n).all Char.isDigit = true ∧
    (natDigitsAux fuel n).foldl (fun a c => 10 * a + (c.toNat - 48)) 0 = n := by
  intro fuel
  induction fuel with
  | zero => intro n h; omega
  | succ fuel ih =>
    intro n h
    by_cases h10 : n < 10
    · rw [natDigitsAux, if_pos h10]
      refine ⟨by simp, ?_, ?_⟩
      · simp [digitChar_isDigit h10]
      · simp [digitChar_toNat h10]
    · rw [natDigitsAux, if_neg h10]
      have hdiv : n / 10 < fuel := by
        have := Nat.div_lt_self (by omega : 0 < n) (by omega : 1 < 10)
        omega
      obtain ⟨hne, hdig, hval⟩ := ih (n / 10) hdiv
      refine ⟨by simp, ?_, ?_⟩
      · rw [List.all_append, hdig]
        simp [digitChar_isDigit (Nat.mod_lt n (by omega))]
      · rw [List.foldl_append, hval]
        simp only [List.foldl]
        rw [digitChar_toNat (Nat.mod_lt n (by omega))]
        omega

theorem natDigits_val {n : Nat} :
    natDigits n ≠ [] ∧ (natDigits n).all Char.isDigit = true ∧
    (natDigits n).foldl (fun a c => 10 * a + (c.toNat - 48)) 0 = n :=
  natDigitsAux_spec (n + 1) n (Nat.lt_succ_self n)

theorem natDigitsAux_len : ∀ fuel n k, n < fuel → n < 10 ^ k → 1 ≤ k →
    (natDigitsAux fuel n).length ≤ k := by
  intro fuel
  induction fuel with
  | zero => intro n k h; omega
  | succ fuel ih =>
    intro n k h hk hk1
    by_cases h10 : n < 10
    · rw [natDigitsAux, if_pos h10]
      simpa using hk1
    · rw [natDigitsAux, if_neg h10]
      have hdiv : n / 10 < fuel := by
        have := Nat.div_lt_self (by omega : 0 < n) (by omega : 1 < 10)
        omega
      have hk2 : 2 ≤ k := by
        by_contra hc
        have : k = 1 := by omega
        rw [this] at hk
        simp at hk
        omega
      have hdivpow : n / 10 < 10 ^ (k - 1) := by
        rw [Nat.div_lt_iff_lt_mul (by omega)]
        have : 10 ^ (k - 1) * 10 = 10 ^ k := by
          rw [← Nat.pow_succ]
          congr 1
          omega
        omega
      have := ih (n / 10) (k - 1) hdiv hdivpow (by omega)
      rw [List.length_append]
      simp only [List.length_singleton]
      omega

theorem natDigits_len {n : Nat} {k : Nat} (h : n < 10 ^ k) (h1 : 1 ≤ k) :
    (natDigits n).length ≤ k :=
  natDigitsAux_len (n + 1) n k (Nat.lt_succ_self n) h h1

theorem digitsToNat_natDigits {n : Nat} : digitsToNat (natDigits n) = some n := by
  obtain ⟨hne, hdig, hval⟩ := natDigits_val (n := n)
  unfold digitsToNat
  rw [if_pos ⟨hne, hdig⟩, hval]

theorem toList_mk (l : List Char) : (⟨l⟩ : String).toList = l := rfl

theorem parseNatField_pad2 {m : Nat} (h : m ≤ 99) :
    parseNatField (pad2 m).toList 2 = some m := by
  unfold pad2
  by_cases h10 : m < 10
  · rw [if_pos h10]
    obtain ⟨hne, hdig, hval⟩ := natDigits_val (n := m)
    have hlen : (natDigits m).length ≤ 1 := natDigits_len (by omega) (by omega)
    unfold parseNatField
    rw [toList_mk]
    rw [if_pos (by simp only [List.length_cons]; omega : ('0' :: natDigits m).length ≤ 2)]
    unfold digitsToNat
    rw [if_pos ⟨by simp, by simp [hdig]⟩]
    simp only [List.foldl]
    show some (List.foldl _ (10 * 0 + ('0'.toNat - 48)) _) = some m
    have : 10 * 0 + ('0'.toNat - 48) = 0 := by decide
    rw [this, hval]
  · rw [if_neg h10]
    unfold natToStr parseNatField
    rw [toList_mk, if_pos (natDigits_len (by omega : m < 10 ^ 2) (by omega))]
    exact digitsToNat_natDigits

theorem parseNatField_natToStr {y : Nat} (h : y ≤ 9999) :
    parseNatField (natToStr y).toList 4 = some y := by
  unfold natToStr parseNatField
  rw [toList_mk, if_pos (natDigits_len (by omega : y < 10 ^ 4) (by omega))]
  exact digitsToNat_natDigits

theorem splitOnChar_sep {sep : Char} {l1 l2 : List Char}
    (h : ∀ c ∈ l1, c ≠ sep) :
    splitOnChar sep (l1 ++ sep :: l2) = l1 :: splitOnChar sep l2 := by
  induction l1 with
  | nil =>
    rw [List.nil_append, splitOnChar, if_pos rfl]
  | cons c l1t ih =>
    rw [List.cons_append, splitOnChar]
    have hc : c ≠ sep := h c (List.mem_cons_self c l1t)
    rw [if_neg hc, ih (fun x hx => h x (List.mem_cons_of_mem c hx))]

theorem isDigit_ne {c sep : Char} (hd : c.isDigit = true)
    (hsep : sep.isDigit = false) : c ≠ sep := by
  intro he
  rw [he, hsep] at hd
  cases hd

theorem pad2_noSep {m : Nat} {sep : Char} (hsep : sep.isDigit = false) :
    ∀ c ∈ (pad2 m).toList, c ≠ sep := by
  intro c hc
  refine isDigit_ne ?_ hsep
  unfold pad2 at hc
  by_cases h10 : m < 10
  · rw [if_pos h10, toList_mk] at hc
    rcases List.mem_cons.mp hc with rfl | hm
    · decide
    · exact (List.all_eq_true.mp natDigits_val.2.1) c hm
  · rw [if_neg h10] at hc
    unfold natToStr at hc
    rw [toList_mk] at hc
    exact (List.all_eq_true.mp natDigits_val.2.1) c hc

theorem natToStr_noSep {y : Nat} {sep : Char} (hsep : sep.isDigit = false) :
    ∀ c ∈ (natToStr y).toList, c ≠ sep := by
  intro c hc
  unfold natToStr at hc
  rw [toList_mk] at hc
  exact isDigit_ne ((List.all_eq_true.mp natDigits_val.2.1) c hc) hsep

theorem splitOnChar_noSep {sep : Char} {l : List Char} (h : ∀ c ∈ l, c ≠ sep) :
    splitOnChar sep l = [l] := by
  induction l with
  | nil => rfl
  | cons c t ih =>
    rw [splitOnChar, if_neg (h c (List.mem_cons_self c t)),
      ih (fun x hx => h x (List.mem_cons_of_mem c hx))]

theorem daysInMonth_le {y m : Nat} : daysInMonth y m ≤ 31 := by
  unfold daysInMonth
  split
  · split <;> omega
  · split <;> omega

theorem parseExifDate_bounds {s : String} {dt : SDate}
    (h : parseExifDate s = some dt) :
    1 ≤ dt.month ∧ dt.month ≤ 12 ∧ 1 ≤ dt.year ∧ dt.year ≤ 9999 ∧
    1 ≤ dt.day ∧ dt.day ≤ daysInMonth dt.year dt.month := by
  unfold parseExifDate at h
  split at h
  · split at h
    · rename_i ys ms ds hs ns ss hq1 hq2
      cases h1 : parseNatField ys 4 with
      | none => rw [h1] at h; simp at h
      | some y =>
      rw [h1] at h
      cases h2 : parseNatField ms 2 with
      | none => rw [h2] at h; simp at h
      | some m =>
      rw [h2] at h
      cases h3 : parseNatField ds 2 with
      | none => rw [h3] at h; simp at h
      | some d =>
      rw [h3] at h
      cases h4 : parseNatField hs 2 with
      | none => rw [h4] at h; simp at h
      | some hh =>
      rw [h4] at h
      cases h5 : parseNatField ns 2 with
      | none => rw [h5] at h; simp at h
      | some nn =>
      rw [h5] at h
      cases h6 : parseNatField ss 2 with
      | none => rw [h6] at h; simp at h
      | some sec =>
      rw [h6] at h
      have h7 : (if 1 ≤ m ∧ m ≤ 12 ∧ 1 ≤ y ∧ y ≤ 9999 ∧ 1 ≤ d ∧
          d ≤ daysInMonth y m ∧ hh ≤ 23 ∧ nn ≤ 59 ∧ sec ≤ 59 then
          some (⟨y, m, d⟩ : SDate) else none) = some dt := h
      split at h7
      · rename_i hcond
        injection h7 with h8
        rw [← h8]
        exact ⟨hcond.1, hcond.2.1, hcond.2.2.1, hcond.2.2.2.1,
          hcond.2.2.2.2.1, hcond.2.2.2.2.2.1⟩
      · cases h7
    · cases h
  · cases h

theorem parseDateKey_formatDateKey {dt : SDate}
    (hm1 : 1 ≤ dt.month) (hm2 : dt.month ≤ 12) (hy1 : 1 ≤ dt.year)
    (hy2 : dt.year ≤ 9999) (hd1 : 1 ≤ dt.day)
    (hd2 : dt.day ≤ daysInMonth dt.year dt.month) :
    parseDateKey (formatDateKey dt) = some dt := by
  unfold parseDateKey formatDateKey
  have hTL : (pad2 dt.month ++ "-" ++ pad2 dt.day ++ "-" ++ natToStr dt.year).toList
      = (pad2 dt.month).toList ++
        '-' :: ((pad2 dt.day).toList ++ '-' :: (natToStr dt.year).toList) := by
    show ((((pad2 dt.month ++ "-") ++ pad2 dt.day) ++ "-") ++ natToStr dt.year).data = _
    simp [String.data_append]
  rw [hTL, splitOnChar_sep (pad2_noSep (by decide)),
    splitOnChar_sep (pad2_noSep (by decide)),
    splitOnChar_noSep (natToStr_noSep (by decide))]
  show (do
    let m ← parseNatField (pad2 dt.month).toList 2
    let d ← parseNatField (pad2 dt.day).toList 2
    let y ← parseNatField (natToStr dt.year).toList 4
    if 1 ≤ m ∧ m ≤ 12 ∧ 1 ≤ y ∧ y ≤ 9999 ∧ 1 ≤ d ∧ d ≤ daysInMonth y m then
      some (⟨y, m, d⟩ : SDate)
    else none) = some dt
  rw [parseNatField_pad2 (by omega), parseNatField_pad2
    (Nat.le_trans hd2 (Nat.le_trans daysInMonth_le (by omega))),
    parseNatField_natToStr hy2]
  show (if 1 ≤ dt.month ∧ dt.month ≤ 12 ∧ 1 ≤ dt.year ∧ dt.year ≤ 9999 ∧
      1 ≤ dt.day ∧ dt.day ≤ daysInMonth dt.year dt.month then
      some (⟨dt.year, dt.month, dt.day⟩ : SDate) else none) = some dt
  rw [if_pos ⟨hm1, hm2, hy1, hy2, hd1, hd2⟩]

/-! ### C4: no-op transfers and the organized-tree fixpoint -/

theorem doTransfer_self {env : CPath → CPath → Bool} {dryRun : Bool} {acc : ExecAcc}
    {src dest rep : CPath} (h : dest = src) :
    doTransfer env dryRun acc src dest rep = acc := by
  unfold doTransfer
  by_cases ha : acc.abort.isSome
  · rw [if_pos ha]
  · rw [if_neg ha, if_neg (by simp [h])]

theorem execRawFile_noop {env : CPath → CPath → Bool} {sc : List (String × CPath)}
    {k : String} {acc : ExecAcc} {f : CPath} (h1 : f = [k, baseName f])
    (h2 : ∀ sp ∈ (dictGet sc (baseName f)).toList, sp = [k, baseName sp]) :
    execRawFile env false sc k acc f = acc := by
  unfold execRawFile
  cases hg : dictGet sc (baseName f) with
  | none => exact doTransfer_self h1.symm
  | some sp =>
    have hsp : sp = [k, baseName sp] := h2 sp (by rw [hg]; simp)
    show doTransfer env false (doTransfer env false acc f [k, baseName f] f)
      sp [k, baseName sp] f = acc
    rw [doTransfer_self h1.symm, doTransfer_self hsp.symm]

theorem execRawFiles_noop {env : CPath → CPath → Bool} {sc : List (String × CPath)}
    {k : String} {acc : ExecAcc} (l : List CPath)
    (h1 : ∀ f ∈ l, f = [k, baseName f])
    (h2 : ∀ f ∈ l, ∀ sp ∈ (dictGet sc (baseName f)).toList, sp = [k, baseName sp]) :
    execRawFiles env false sc k acc l = acc := by
  induction l with
  | nil => rfl
  | cons f rest ih =>
    show execRawFiles env false sc k (execRawFile env false sc k acc f) rest = acc
    rw [execRawFile_noop (h1 f (List.mem_cons_self f rest))
      (h2 f (List.mem_cons_self f rest))]
    exact ih (fun g hg => h1 g (List.mem_cons_of_mem f hg))
      (fun g hg => h2 g (List.mem_cons_of_mem f hg))

theorem execMkdirRaw_mem {dryRun : Bool} {ex : List String} {k : String}
    {acc : ExecAcc} (h : k ∈ ex) : execMkdirRaw dryRun ex k acc = acc := by
  unfold execMkdirRaw
  rw [if_pos h]

theorem execRawGroup_noop {env : CPath → CPath → Bool} {ex : List String}
    {sc : List (String × CPath)} {acc : ExecAcc} {g : String × List CPath}
    (hab : acc.abort = none) (hk : g.1 ∈ ex)
    (h1 : ∀ f ∈ g.2, f = [g.1, baseName f])
    (h2 : ∀ f ∈ g.2, ∀ sp ∈ (dictGet sc (baseName f)).toList, sp = [g.1, baseName sp]) :
    execRawGroup env false ex sc acc g = acc := by
  unfold execRawGroup
  rw [ifOk_ok hab]
  show ifOk (execMkdirRaw false ex g.1 acc)
    (fun a1 => execRawFiles env false sc g.1 a1 g.2) = acc
  rw [execMkdirRaw_mem hk, ifOk_ok hab]
  exact execRawFiles_noop g.2 h1 h2

theorem execRawGroups_noop {env : CPath → CPath → Bool} {ex : List String}
    {sc : List (String × CPath)} {acc : ExecAcc} (gs : List (String × List CPath))
    (hab : acc.abort = none)
    (h : ∀ g ∈ gs, g.1 ∈ ex ∧ (∀ f ∈ g.2, f = [g.1, baseName f]) ∧
      (∀ f ∈ g.2, ∀ sp ∈ (dictGet sc (baseName f)).toList, sp = [g.1, baseName sp])) :
    execRawGroups env false ex sc acc gs = acc := by
  induction gs with
  | nil => rfl
  | cons g rest ih =>
    show execRawGroups env false ex sc (execRawGroup env false ex sc acc g) rest = acc
    rw [execRawGroup_noop hab (h g (List.mem_cons_self g rest)).1
      (h g (List.mem_cons_self g rest)).2.1 (h g (List.mem_cons_self g rest)).2.2]
    exact ih (fun g1 hg1 => h g1 (List.mem_cons_of_mem g hg1))

theorem execJpgFiles_noop {env : CPath → CPath → Bool} {k : String} {acc : ExecAcc}
    (l : List CPath) (h1 : ∀ f ∈ l, f = [k, "jpg", baseName f]) :
    execJpgFiles env false k acc l = acc := by
  induction l with
  | nil => rfl
  | cons f rest ih =>
    show execJpgFiles env false k (execJpgFile env false k acc f) rest = acc
    rw [show execJpgFile env false k acc f = acc from
      doTransfer_self (h1 f (List.mem_cons_self f rest)).symm]
    exact ih (fun g hg => h1 g (List.mem_cons_of_mem f hg))

theorem execMkdirJpg_exists {k : String} {acc : ExecAcc}
    (h : existsPath acc.fs [k, "jpg"] = true) : execMkdirJpg false k acc = acc := by
  unfold execMkdirJpg
  rw [if_neg (by simp [h])]

theorem execJpgGroup_noop {env : CPath → CPath → Bool} {acc : ExecAcc}
    {g : String × List CPath} (hab : acc.abort = none)
    (hex : existsPath acc.fs [g.1, "jpg"] = true)
    (h1 : ∀ f ∈ g.2, f = [g.1, "jpg", baseName f]) :
    execJpgGroup env false acc g = acc := by
  unfold execJpgGroup
  rw [ifOk_ok hab]
  show ifOk (execMkdirJpg false g.1 acc)
    (fun a1 => execJpgFiles env false g.1 a1 g.2) = acc
  rw [execMkdirJpg_exists hex, ifOk_ok hab]
  exact execJpgFiles_noop g.2 h1

theorem execJpgGroups_noop {env : CPath → CPath → Bool} {acc : ExecAcc}
    (gs : List (String × List CPath)) (hab : acc.abort = none)
    (h : ∀ g ∈ gs, existsPath acc.fs [g.1, "jpg"] = true ∧
      ∀ f ∈ g.2, f = [g.1, "jpg", baseName f]) :
    execJpgGroups env false acc gs = acc := by
  induction gs with
  | nil => rfl
  | cons g rest ih =>
    show execJpgGroups env false (execJpgGroup env false acc g) rest = acc
    rw [execJpgGroup_noop hab (h g (List.mem_cons_self g rest)).1
      (h g (List.mem_cons_self g rest)).2]
    exact ih (fun g1 hg1 => h g1 (List.mem_cons_of_mem g hg1))

/-- C4 counterexample: two successive runs are not idempotent. The tree
holds IMG2.cr2 at the root (dated 03-16-2023) and b.cr2 inside the
directory x03-16-2023y, whose name is not a date key, so the first run
skips that subtree (whitelist, line 62), moves only IMG2.cr2, and
finishes cleanly with no errors. But the first run has created the date
directory 03-16-2023, and that name is a substring of x03-16-2023y — so
the second run now admits the previously skipped subtree and performs an
additional transfer, moving b.cr2. The claimed zero-transfer second run
is refuted. -/
theorem C4_counterexample :
    (organizeInPlace (fun _ _ => false)
        ⟨[["x03-16-2023y"]],
         [(["IMG2.cr2"], some "2023:03:16 10:00:00"),
          (["x03-16-2023y", "b.cr2"], some "2023:03:16 10:00:00")]⟩
        "roll" false).errs = [] ∧
    (organizeInPlace (fun _ _ => false)
        ⟨[["x03-16-2023y"]],
         [(["IMG2.cr2"], some "2023:03:16 10:00:00"),
          (["x03-16-2023y", "b.cr2"], some "2023:03:16 10:00:00")]⟩
        "roll" false).abort = none ∧
    (organizeInPlace (fun _ _ => false)
        (organizeInPlace (fun _ _ => false)
          ⟨[["x03-16-2023y"]],
           [(["IMG2.cr2"], some "2023:03:16 10:00:00"),
            (["x03-16-2023y", "b.cr2"], some "2023:03:16 10:00:00")]⟩
          "roll" false).fs
        "roll" false).trace =
      [.renameA ["x03-16-2023y", "b.cr2"] ["03-16-2023", "b.cr2"]] := by
  decide

/-- C4 as amended: identical-path transfers are no-ops, not errors, and a
fully organized tree is a fixpoint. If the scan's plan places every raw
group under a date key that is among the existing date directories, with
every member already at [key, basename], every sidecar the index resolves
for a member already at [key, its basename], and every preview member
already at [key, jpg, basename] with that jpg subdirectory present, then
the run performs zero transfers, creates no directory, and returns the
tree unchanged with exactly the scan's errors. Two successive runs are
nevertheless not idempotent in general: as the counterexample shows, the
first run can create a date directory whose name widens the substring
whitelist of line 62, so a second run moves files the first run never
scanned. -/
theorem C4_organized_tree_is_fixpoint (env : CPath → CPath → Bool) (fs : FS)
    (cr : String)
    (h0 : (scan fs cr).abort = none)
    (hraw : ∀ g ∈ (scan fs cr).plan.raws, g.1 ∈ (scan fs cr).plan.existing ∧
      ∀ f ∈ g.2, f = [g.1, baseName f])
    (hsc : ∀ g ∈ (scan fs cr).plan.raws, ∀ f ∈ g.2,
      ∀ sp ∈ (dictGet (scan fs cr).plan.sidecars (baseName f)).toList,
        sp = [g.1, baseName sp])
    (hjpg : ∀ g ∈ (scan fs cr).plan.jpgs, existsPath fs [g.1, "jpg"] = true ∧
      ∀ f ∈ g.2, f = [g.1, "jpg", baseName f]) :
    organizeInPlace env fs cr false = ⟨fs, (scan fs cr).errs, [], none⟩ := by
  have hE : execPlan env false fs (scan fs cr) =
      ⟨fs, (scan fs cr).errs, [], none⟩ := by
    unfold execPlan
    rw [execRawGroups_noop (scan fs cr).plan.raws rfl
      (fun g hg => ⟨(hraw g hg).1, (hraw g hg).2, hsc g hg⟩)]
    exact execJpgGroups_noop (scan fs cr).plan.jpgs rfl hjpg
  unfold organizeInPlace
  rw [if_neg (by simp [h0]), hE]

/-- Witness for the amended C4 theorem: a concrete organized tree — a raw
file, its darktable sidecar and a preview already in their date
directory — on which a run moves nothing and changes nothing. -/
theorem C4_organized_tree_is_fixpoint_witness :
    organizeInPlace (fun _ _ => false)
        ⟨[["03-16-2023"], ["03-16-2023", "jpg"]],
         [(["03-16-2023", "IMG2.cr2"], some "2023:03:16 10:00:00"),
          (["03-16-2023", "IMG2.cr2.xmp"], none),
          (["03-16-2023", "jpg", "IMG3.jpg"], some "2023:03:16 10:00:00")]⟩
        "roll" false =
      ⟨⟨[["03-16-2023"], ["03-16-2023", "jpg"]],
        [(["03-16-2023", "IMG2.cr2"], some "2023:03:16 10:00:00"),
         (["03-16-2023", "IMG2.cr2.xmp"], none),
         (["03-16-2023", "jpg", "IMG3.jpg"], some "2023:03:16 10:00:00")]⟩,
       (scan ⟨[["03-16-2023"], ["03-16-2023", "jpg"]],
         [(["03-16-2023", "IMG2.cr2"], some "2023:03:16 10:00:00"),
          (["03-16-2023", "IMG2.cr2.xmp"], none),
          (["03-16-2023", "jpg", "IMG3.jpg"], some "2023:03:16 10:00:00")]⟩
         "roll").errs, [], none⟩ :=
  C4_organized_tree_is_fixpoint (fun _ _ => false)
    ⟨[["03-16-2023"], ["03-16-2023", "jpg"]],
     [(["03-16-2023", "IMG2.cr2"], some "2023:03:16 10:00:00"),
      (["03-16-2023", "IMG2.cr2.xmp"], none),
      (["03-16-2023", "jpg", "IMG3.jpg"], some "2023:03:16 10:00:00")]⟩
    "roll" (by decide) (by decide) (by decide) (by decide)
